import Mathlib

/-!
# Verification of the go-options command-line option parser

Shallow embedding of `src/options/options.go` (package `options`): the spec
compiler `NewOptions`, the parse engine `Parse` (with the default parse
callback, i.e. `ParseCallback` unset), and the value accessors `Get`/`GetInt`.

Modelling conventions:
* Go strings are Lean `String`s; all names handled by the flag regexes are
  ASCII (`[-\w]`), so byte positions and rune positions coincide.
* Go maps are association lists with `alookup`/`ainsert` (assignment replaces
  the binding of an existing key, otherwise appends); membership in a
  `map[string]bool` set is list membership.
* Fatal conditions (`PrintUsageAndExit` with a nonzero status, and Go
  `panic`s) are `Except.error` values of the `Err` type, which records which
  fatal message was produced.
* Go `int` is modelled as a 64-bit two's-complement integer: arithmetic wraps
  via `wrap64`, and `strconv.ParseInt` range-checks against `[-2^63, 2^63)`.
* `fmt.Sscan` of a single `*int` operand is modelled by `sscanInt`, following
  `fmt.(*ss).scanInt` with verb `v`: skip spaces, optional sign, Go 1.13+
  base-prefix handling, maximal digit run, then `strconv.ParseInt(tok, 0, 64)`
  (ASCII whitespace only).
-/

set_option linter.unusedVariables false

namespace GoOptions

/-! ## Character classes (Go regexp `\w`, `\s` are ASCII); ranges are stated
on code points: `0`–`9` = 48–57, `A`–`Z` = 65–90, `a`–`z` = 97–122, `_` = 95. -/

def isWordChar (c : Char) : Bool :=
  (48 ≤ c.toNat ∧ c.toNat ≤ 57) ∨ (65 ≤ c.toNat ∧ c.toNat ≤ 90) ∨
    (97 ≤ c.toNat ∧ c.toNat ≤ 122) ∨ c.toNat = 95

/-- Character class `[-\w]` of the flag-name groups. -/
def isNameChar (c : Char) : Bool := isWordChar c || c == '-'

/-- Character class `[-\w,]` of the names group of an option line. -/
def isNameCommaChar (c : Char) : Bool := isNameChar c || c == ','

/-- Go regexp `\s` = `[\t\n\f\r ]`. -/
def isRegexSpace (c : Char) : Bool :=
  c.toNat = 9 || c.toNat = 10 || c.toNat = 12 || c.toNat = 13 || c.toNat = 32

/-- Whitespace skipped by `fmt`'s scanner: its `space` table in `fmt/scan.go`
(`0x09`-`0x0d`, `0x20`, `0x85`, `0xa0`, `0x1680`, `0x2000`-`0x200a`,
`0x2028`-`0x2029`, `0x202f`, `0x3000`); runes at or above `1 << 16` are never
in the table, and none of its entries reaches that bound. -/
def isScanSpace (c : Char) : Bool :=
  (9 ≤ c.toNat && c.toNat ≤ 13) || c.toNat = 32 || c.toNat = 133 ||
    c.toNat = 160 || c.toNat = 5760 ||
    (8192 ≤ c.toNat && c.toNat ≤ 8202) || c.toNat = 8232 ||
    c.toNat = 8233 || c.toNat = 8239 || c.toNat = 12288

/-- No printable ASCII character is scanner whitespace. -/
theorem isScanSpace_ascii_visible {c : Char} (h1 : 33 ≤ c.toNat)
    (h2 : c.toNat ≤ 127) : isScanSpace c = false := by
  simp only [isScanSpace, Bool.or_eq_false_iff, Bool.and_eq_false_iff,
    decide_eq_false_iff_not]
  omega

def isDecDigit (c : Char) : Bool := 48 ≤ c.toNat ∧ c.toNat ≤ 57
def isOctDigit (c : Char) : Bool := 48 ≤ c.toNat ∧ c.toNat ≤ 55
def isBinDigit (c : Char) : Bool := c.toNat = 48 ∨ c.toNat = 49
def isHexDigit (c : Char) : Bool :=
  isDecDigit c || (97 ≤ c.toNat ∧ c.toNat ≤ 102) || (65 ≤ c.toNat ∧ c.toNat ≤ 70)

/-! ## Association lists standing for Go maps -/

def alookup (key : String) : List (String × String) → Option String
  | [] => none
  | (k, v) :: rest => if k = key then some v else alookup key rest

/-- Go map assignment `m[k] = v`. -/
def ainsert (key val : String) : List (String × String) → List (String × String)
  | [] => [(key, val)]
  | (k, v) :: rest =>
    if k = key then (key, val) :: rest else (k, v) :: ainsert key val rest

theorem alookup_ainsert_self (key val : String) (l : List (String × String)) :
    alookup key (ainsert key val l) = some val := by
  induction l with
  | nil => simp [ainsert, alookup]
  | cons kv rest ih =>
    obtain ⟨k, v⟩ := kv
    by_cases h : k = key <;> simp [ainsert, alookup, h, ih]

theorem alookup_ainsert_ne (key key' val : String) (l : List (String × String))
    (h : key' ≠ key) : alookup key' (ainsert key val l) = alookup key' l := by
  induction l with
  | nil => simp [ainsert, alookup, Ne.symm h]
  | cons kv rest ih =>
    obtain ⟨k, v⟩ := kv
    by_cases hk : k = key
    · subst hk
      simp [ainsert, alookup, Ne.symm h]
    · simp only [ainsert, if_neg hk, alookup]
      by_cases hk' : k = key' <;> simp [hk', ih]

theorem alookup_mem_values {key v : String} {l : List (String × String)}
    (h : alookup key l = some v) : v ∈ l.map Prod.snd := by
  induction l with
  | nil => simp [alookup] at h
  | cons kv rest ih =>
    obtain ⟨k, w⟩ := kv
    simp only [alookup] at h
    by_cases hk : k = key
    · simp [hk] at h
      simp [h.symm]
    · simp only [if_neg hk] at h
      simpa using Or.inr (ih h)

theorem ainsert_of_not_mem (key val : String) (l : List (String × String))
    (h : alookup key l = none) : ainsert key val l = l ++ [(key, val)] := by
  induction l with
  | nil => simp [ainsert]
  | cons kv rest ih =>
    obtain ⟨k, v⟩ := kv
    simp only [alookup] at h
    by_cases hk : k = key
    · simp [hk] at h
    · simp only [ainsert, if_neg hk, List.cons_append, List.cons.injEq, true_and]
      exact ih (by simpa [hk] using h)

/-! ## Decimal rendering of a Go `int` (`fmt.Sprintf("%d", ·)`) -/

def digitChar (n : Nat) : Char := Char.ofNat (48 + n)

/-- Digits of `n`, most significant first; fueled so it reduces in the kernel.
The fuel is always sufficient when `n < fuel`. -/
def natDecAux : Nat → Nat → List Char → List Char
  | 0, _, acc => acc
  | fuel + 1, n, acc =>
    if n < 10 then digitChar n :: acc
    else natDecAux fuel (n / 10) (digitChar (n % 10) :: acc)

def natDecL (n : Nat) : List Char := natDecAux (n + 1) n []

def natDec (n : Nat) : String := String.mk (natDecL n)

/-- `fmt.Sprintf("%d", z)` for a (64-bit) Go `int`. -/
def intDec (z : Int) : String :=
  if z < 0 then String.mk ('-' :: natDecL z.natAbs) else natDec z.natAbs

/-- Numeric value of a most-significant-first digit list. -/
def decValue (ds : List Char) : Nat :=
  ds.foldl (fun a c => a * 10 + (c.toNat - 48)) 0

/-! ## 64-bit wraparound arithmetic -/

def wrap64 (z : Int) : Int := (z + 2 ^ 63) % 2 ^ 64 - 2 ^ 63

theorem wrap64_eq_self {z : Int} (h₁ : -(2 ^ 63) ≤ z) (h₂ : z < 2 ^ 63) :
    wrap64 z = z := by
  unfold wrap64
  omega

theorem wrap64_range (z : Int) : -(2 ^ 63) ≤ wrap64 z ∧ wrap64 z < 2 ^ 63 := by
  unfold wrap64
  constructor
  · have := Int.emod_nonneg (z + 2 ^ 63) (b := 2 ^ 64) (by norm_num)
    omega
  · have := Int.emod_lt_of_pos (z + 2 ^ 63) (b := 2 ^ 64) (by norm_num)
    omega

theorem wrap64_add_one (z : Int) : wrap64 (wrap64 z + 1) = wrap64 (z + 1) := by
  unfold wrap64
  have h : (z + 2 ^ 63) % 2 ^ 64 - 2 ^ 63 + 1 + 2 ^ 63 = (z + 2 ^ 63) % 2 ^ 64 + 1 := by ring
  rw [h, Int.add_emod, Int.emod_emod_of_dvd _ (by norm_num : (2:Int) ^ 64 ∣ 2 ^ 64),
    ← Int.add_emod]
  ring_nf

/-! ### Properties of the decimal rendering -/

theorem natDecAux_eq (fuel : Nat) (n : Nat) (acc : List Char) (h : n < fuel) :
    natDecAux fuel n acc = natDecL n ++ acc := by
  induction n using Nat.strong_induction_on generalizing fuel acc with
  | _ n ih =>
    match fuel, h with
    | fuel + 1, h =>
      by_cases h10 : n < 10
      · simp [natDecAux, natDecL, h10]
      · have hdivlt : n / 10 < n := Nat.div_lt_self (by omega) (by omega)
        have h1 : n / 10 < fuel := by omega
        have h2 : n / 10 < n := hdivlt
        simp only [natDecAux, if_neg h10, natDecL]
        rw [ih _ h2 _ _ h1, ih _ h2 _ _ (by omega : n / 10 < n)]
        simp [natDecAux, if_neg h10]

theorem natDecL_eq (n : Nat) :
    natDecL n = if n < 10 then [digitChar n]
                else natDecL (n / 10) ++ [digitChar (n % 10)] := by
  by_cases h10 : n < 10
  · simp [natDecL, natDecAux, h10]
  · have hdivlt : n / 10 < n := Nat.div_lt_self (by omega) (by omega)
    rw [if_neg h10,
      show natDecL n = natDecAux n (n / 10) [digitChar (n % 10)] from by
        simp [natDecL, natDecAux, h10]]
    exact natDecAux_eq n (n / 10) _ (by omega)

theorem natDecL_ne_nil (n : Nat) : natDecL n ≠ [] := by
  rw [natDecL_eq]
  by_cases h10 : n < 10 <;> simp [h10]

theorem digitChar_toNat : ∀ m, m < 10 → (digitChar m).toNat = 48 + m := by decide

theorem digitChar_isDec : ∀ m, m < 10 → isDecDigit (digitChar m) = true := by decide

theorem natDecL_all_dec (n : Nat) : ∀ c ∈ natDecL n, isDecDigit c = true := by
  induction n using Nat.strong_induction_on with
  | _ n ih =>
    rw [natDecL_eq]
    by_cases h10 : n < 10
    · simp only [if_pos h10, List.mem_singleton]
      rintro c rfl
      exact digitChar_isDec n h10
    · have hdivlt : n / 10 < n := Nat.div_lt_self (by omega) (by omega)
      simp only [if_neg h10, List.mem_append, List.mem_singleton]
      rintro c (hc | rfl)
      · exact ih _ hdivlt c hc
      · exact digitChar_isDec _ (Nat.mod_lt _ (by omega))

theorem natDecL_head_ne_zero (n : Nat) (hn : n ≠ 0) :
    ∀ c l, natDecL n = c :: l → c ≠ '0' := by
  induction n using Nat.strong_induction_on with
  | _ n ih =>
    rw [natDecL_eq]
    by_cases h10 : n < 10
    · simp only [if_pos h10]
      rintro c l h
      cases h
      intro hc
      have h1 := digitChar_toNat n h10
      rw [hc] at h1
      have h0 : ('0' : Char).toNat = 48 := by decide
      omega
    · have hdivlt : n / 10 < n := Nat.div_lt_self (by omega) (by omega)
      simp only [if_neg h10]
      intro c l h
      obtain ⟨c', l', hcl⟩ : ∃ c' l', natDecL (n / 10) = c' :: l' := by
        cases hh : natDecL (n / 10) with
        | nil => exact absurd hh (natDecL_ne_nil _)
        | cons a b => exact ⟨a, b, rfl⟩
      rw [hcl] at h
      simp only [List.cons_append, List.cons.injEq] at h
      exact h.1 ▸ ih _ hdivlt (by omega) c' l' hcl

theorem decValue_append_digit (xs : List Char) (d : Char) :
    decValue (xs ++ [d]) = 10 * decValue xs + (d.toNat - 48) := by
  simp only [decValue, List.foldl_append, List.foldl_cons, List.foldl_nil]
  omega

theorem decValue_natDecL (n : Nat) : decValue (natDecL n) = n := by
  induction n using Nat.strong_induction_on with
  | _ n ih =>
    rw [natDecL_eq]
    by_cases h10 : n < 10
    · simp [if_pos h10, decValue, digitChar_toNat n h10]
    · have hdivlt : n / 10 < n := Nat.div_lt_self (by omega) (by omega)
      rw [if_neg h10, decValue_append_digit, ih _ hdivlt,
        digitChar_toNat _ (Nat.mod_lt _ (by omega))]
      omega

/-! ## `fmt.Sscan` of one `*int` operand (`sscanInt`) -/

def lowerC (c : Char) : Char :=
  if 65 ≤ c.toNat ∧ c.toNat ≤ 90 then Char.ofNat (c.toNat + 32) else c

/-- `fmt.(*ss).scanNumber`'s maximal run over a digit class; the digit strings
used by the scanner all have `_` appended. -/
def takeDigitsU (p : Char → Bool) (cs : List Char) : List Char :=
  cs.takeWhile (fun c => p c || c == '_')

/-- Body of the scanner after the optional sign `sgn` was accepted: the
Go 1.13 `scanBasePrefix`, then the maximal digit run (`scanNumber`). `none`
when the scanner errors (EOF, or no digit where one is required). -/
def scanIntTokenBody (sgn cs1 : List Char) : Option (List Char) :=
  match cs1 with
  | [] => none
  | c :: r =>
    if c == '0' then
      match r with
      | [] => some (sgn ++ ['0'])
      | c2 :: r2 =>
        if c2 == 'b' || c2 == 'B' then some (sgn ++ '0' :: c2 :: takeDigitsU isBinDigit r2)
        else if c2 == 'o' || c2 == 'O' then some (sgn ++ '0' :: c2 :: takeDigitsU isOctDigit r2)
        else if c2 == 'x' || c2 == 'X' then some (sgn ++ '0' :: c2 :: takeDigitsU isHexDigit r2)
        else some (sgn ++ '0' :: takeDigitsU isOctDigit r)
    else
      let run := takeDigitsU isDecDigit (c :: r)
      if run.isEmpty then none else some (sgn ++ run)

/-- `fmt.(*ss).scanInt` (verb `v`) up to the point where the accumulated token
is handed to `strconv.ParseInt`: skip spaces, accept one optional sign, then
the base prefix and digit run. -/
def scanIntToken (cs0 : List Char) : Option (List Char) :=
  match cs0.dropWhile isScanSpace with
  | [] => none
  | c :: r =>
    if c == '+' || c == '-' then scanIntTokenBody [c] r
    else scanIntTokenBody [] (c :: r)

/-- Digit-conversion loop of `strconv.ParseUint` (with `base0 = true`, so
underscores are skipped here and validated separately). -/
def convDigits (base : Nat) : List Char → Nat → Option Nat
  | [], n => some n
  | c :: r, n =>
    if c == '_' then convDigits base r n
    else
      let lc := lowerC c
      let d : Nat :=
        if isDecDigit c then c.toNat - 48
        else if 97 ≤ lc.toNat ∧ lc.toNat ≤ 122 then lc.toNat - 97 + 10
        else 999
      if d ≥ base then none else convDigits base r (n * base + d)

/-- `strconv`'s `underscoreOK` scanning loop; `saw` is one of `'^'` (start),
`'0'` (digit or base prefix), `'_'`, `'!'` (other). -/
def underscoreOKGo (hex : Bool) : List Char → Char → Bool
  | [], saw => saw != '_'
  | c :: r, saw =>
    if isDecDigit c || (hex && 97 ≤ (lowerC c).toNat && (lowerC c).toNat ≤ 102) then
      underscoreOKGo hex r '0'
    else if c == '_' then
      if saw != '0' then false else underscoreOKGo hex r '_'
    else if saw == '_' then false
    else underscoreOKGo hex r '!'

def underscoreOK (tok : List Char) : Bool :=
  let s : List Char :=
    match tok with
    | [] => tok
    | c :: r => if c == '+' || c == '-' then r else tok
  match s with
  | c0 :: c1 :: r =>
    if c0 == '0' && (lowerC c1 == 'b' || lowerC c1 == 'o' || lowerC c1 == 'x') then
      underscoreOKGo (lowerC c1 == 'x') r '0'
    else underscoreOKGo false s '^'
  | _ => underscoreOKGo false s '^'

/-- `strconv.ParseInt(tok, 0, 64)`: strip the sign, detect the base from the
prefix (Go recognises `0b`/`0o`/`0x` only when at least one more character
follows; a bare leading zero means base 8), convert, validate underscores, and
range-check against 64-bit `int`. -/
def parseIntTok (tok : List Char) : Option Int :=
  match tok with
  | [] => none
  | c :: r =>
    let neg := c == '-'
    let s : List Char := if c == '+' || c == '-' then r else c :: r
    match s with
    | [] => none
    | c1 :: r1 =>
      let bd : Nat × List Char :=
        if c1 == '0' then
          match r1 with
          | [] => (8, [])
          | c2 :: r2 =>
            match r2 with
            | [] => (8, [c2])
            | _ :: _ =>
              if lowerC c2 == 'b' then (2, r2)
              else if lowerC c2 == 'o' then (8, r2)
              else if lowerC c2 == 'x' then (16, r2)
              else (8, c2 :: r2)
        else (10, c1 :: r1)
      match convDigits bd.1 bd.2 0 with
      | none => none
      | some n =>
        if tok.contains '_' && !underscoreOK tok then none
        else if neg then (if n > 2 ^ 63 then none else some (-(n : Int)))
        else (if n ≥ 2 ^ 63 then none else some (n : Int))

/-- `fmt.Sscan(val, &num)` for a single `int` operand: `some num` when the scan
succeeds (`n == 1`), `none` when it errors. -/
def sscanInt (s : String) : Option Int :=
  (scanIntToken s.data).bind parseIntTok

/-! ### Scanning back a printed decimal -/

theorem takeWhile_eq_self_of_all {p : Char → Bool} {l : List Char}
    (h : ∀ c ∈ l, p c = true) : l.takeWhile p = l := by
  induction l with
  | nil => rfl
  | cons c r ih =>
    simp [List.takeWhile_cons, h c (by simp), ih fun x hx => h x (by simp [hx])]

theorem takeWhile_append_of_all {p : Char → Bool} {l l' : List Char}
    (h : ∀ c ∈ l, p c = true) :
    (l ++ l').takeWhile p = l ++ l'.takeWhile p := by
  induction l with
  | nil => rfl
  | cons c r ih =>
    simp [List.takeWhile_cons, h c (by simp), ih fun x hx => h x (by simp [hx])]

theorem beq_false_of_toNat_ne {c d : Char} (h : c.toNat ≠ d.toNat) :
    (c == d) = false := by
  cases hbe : c == d with
  | false => rfl
  | true => exact absurd (congrArg Char.toNat (eq_of_beq hbe)) h

theorem isDecDigit_bounds {c : Char} (h : isDecDigit c = true) :
    48 ≤ c.toNat ∧ c.toNat ≤ 57 := by
  simpa [isDecDigit] using h

theorem decDigit_contains_underscore {l : List Char}
    (h : ∀ c ∈ l, isDecDigit c = true) : l.contains '_' = false := by
  induction l with
  | nil => rfl
  | cons c r ih =>
    have hb : ('_' == c) = false :=
      beq_false_of_toNat_ne (by
        have := isDecDigit_bounds (h c (by simp))
        have h95 : ('_' : Char).toNat = 95 := by decide
        omega)
    simp only [List.contains_cons, hb, Bool.false_or]
    exact ih fun x hx => h x (by simp [hx])

theorem convDigits_decimal {ds : List Char} (a : Nat)
    (h : ∀ c ∈ ds, isDecDigit c = true) :
    convDigits 10 ds a = some (ds.foldl (fun x c => x * 10 + (c.toNat - 48)) a) := by
  induction ds generalizing a with
  | nil => rfl
  | cons c r ih =>
    have hc := h c (by simp)
    have hb := isDecDigit_bounds hc
    have hu : (c == '_') = false :=
      beq_false_of_toNat_ne (by
        have h95 : ('_' : Char).toNat = 95 := by decide
        omega)
    simp only [convDigits, hu, Bool.false_eq_true, if_false, hc, if_true,
      List.foldl_cons]
    rw [if_neg (by omega)]
    exact ih _ fun x hx => h x (by simp [hx])

theorem scanIntTokenBody_decimal (sgn : List Char) {c : Char} {rest : List Char}
    (hall : ∀ x ∈ c :: rest, isDecDigit x = true) (hc0 : c ≠ '0') :
    scanIntTokenBody sgn (c :: rest) = some (sgn ++ c :: rest) := by
  have hzero : (c == '0') = false := beq_eq_false_iff_ne.mpr hc0
  have hrun : takeDigitsU isDecDigit (c :: rest) = c :: rest :=
    takeWhile_eq_self_of_all fun x hx => by simp [hall x hx]
  simp [scanIntTokenBody, hzero, hrun]

/-- The token the scanner accumulates from a nonzero decimal numeral is the
numeral itself. -/
theorem scanIntToken_decimal {c : Char} {rest : List Char}
    (hall : ∀ x ∈ c :: rest, isDecDigit x = true) (hc0 : c ≠ '0') :
    scanIntToken (c :: rest) = some (c :: rest) := by
  have hcb := isDecDigit_bounds (hall c (by simp))
  have hspace : isScanSpace c = false :=
    isScanSpace_ascii_visible (by omega) (by omega)
  have hplus : (c == '+') = false := beq_false_of_toNat_ne (by
    have : ('+' : Char).toNat = 43 := by decide
    omega)
  have hminus : (c == '-') = false := beq_false_of_toNat_ne (by
    have : ('-' : Char).toNat = 45 := by decide
    omega)
  simp [scanIntToken, List.dropWhile, hspace, hplus, hminus,
    scanIntTokenBody_decimal [] hall hc0]

/-- Same, for a negative numeral. -/
theorem scanIntToken_neg_decimal {c : Char} {rest : List Char}
    (hall : ∀ x ∈ c :: rest, isDecDigit x = true) (hc0 : c ≠ '0') :
    scanIntToken ('-' :: c :: rest) = some ('-' :: c :: rest) := by
  have hspace : isScanSpace '-' = false := by decide
  have hminus : (('-' : Char) == '-') = true := by decide
  simp [scanIntToken, List.dropWhile, hspace, hminus,
    scanIntTokenBody_decimal ['-'] hall hc0]

/-- `strconv.ParseInt` on a plain nonzero decimal numeral. -/
theorem parseIntTok_decimal {c : Char} {rest : List Char}
    (hall : ∀ x ∈ c :: rest, isDecDigit x = true) (hc0 : c ≠ '0')
    (hlt : (decValue (c :: rest) : Int) < 2 ^ 63) :
    parseIntTok (c :: rest) = some ((decValue (c :: rest) : Int)) := by
  have hcb := isDecDigit_bounds (hall c (by simp))
  have hplus : c ≠ '+' := by intro h; subst h; revert hcb; decide
  have hminus : c ≠ '-' := by intro h; subst h; revert hcb; decide
  have hconv : convDigits 10 (c :: rest) 0 = some (decValue (c :: rest)) :=
    convDigits_decimal 0 hall
  have hnmem : ('_' : Char) ∉ c :: rest := by
    intro hm
    have hb := isDecDigit_bounds (hall _ hm)
    have h95 : ('_' : Char).toNat = 95 := by decide
    omega
  have hnotge : ¬ decValue (c :: rest) ≥ 2 ^ 63 := by
    intro hge
    have hc : ((2:Nat) ^ 63 : Int) ≤ (decValue (c :: rest) : Int) := by exact_mod_cast hge
    norm_num at hc
    omega
  simp only [List.mem_cons, not_or] at hnmem
  simp [parseIntTok, hc0, hplus, hminus, hconv, hnmem.1, hnmem.2, hnotge]
  omega

/-- `strconv.ParseInt` on a `-`-signed nonzero decimal numeral. -/
theorem parseIntTok_neg_decimal {c : Char} {rest : List Char}
    (hall : ∀ x ∈ c :: rest, isDecDigit x = true) (hc0 : c ≠ '0')
    (hle : (decValue (c :: rest) : Int) ≤ 2 ^ 63) :
    parseIntTok ('-' :: c :: rest) = some (-(decValue (c :: rest) : Int)) := by
  have hconv : convDigits 10 (c :: rest) 0 = some (decValue (c :: rest)) :=
    convDigits_decimal 0 hall
  have hnmem : ('_' : Char) ∉ c :: rest := by
    intro hm
    have hb := isDecDigit_bounds (hall _ hm)
    have h95 : ('_' : Char).toNat = 95 := by decide
    omega
  have hnotgt : ¬ decValue (c :: rest) > 2 ^ 63 := by
    intro hgt
    have hc : ((2:Nat) ^ 63 : Int) < (decValue (c :: rest) : Int) := by exact_mod_cast hgt
    norm_num at hc
    omega
  simp only [List.mem_cons, not_or] at hnmem
  simp [parseIntTok, hc0, hconv, hnmem.1, hnmem.2, hnotgt]
  omega

/-- Round trip: scanning back the decimal rendering of an in-range 64-bit
integer recovers the integer. -/
theorem sscanInt_intDec (z : Int) (h1 : -(2 ^ 63) ≤ z) (h2 : z < 2 ^ 63) :
    sscanInt (intDec z) = some z := by
  rcases lt_trichotomy z 0 with hneg | hz | hpos
  · have habs : 1 ≤ z.natAbs := by omega
    obtain ⟨c, rest, hds⟩ : ∃ c rest, natDecL z.natAbs = c :: rest := by
      cases hh : natDecL z.natAbs with
      | nil => exact absurd hh (natDecL_ne_nil _)
      | cons a b => exact ⟨a, b, rfl⟩
    have hall : ∀ x ∈ c :: rest, isDecDigit x = true := by
      rw [← hds]; exact natDecL_all_dec _
    have hc0 : c ≠ '0' := natDecL_head_ne_zero _ (by omega) c rest hds
    have hval : decValue (c :: rest) = z.natAbs := by
      rw [← hds]; exact decValue_natDecL _
    have hle : (decValue (c :: rest) : Int) ≤ 2 ^ 63 := by
      rw [hval]; omega
    have hrepr : intDec z = String.mk ('-' :: c :: rest) := by
      rw [intDec, if_pos hneg, hds]
    rw [hrepr]
    show (scanIntToken ('-' :: c :: rest)).bind parseIntTok = some z
    rw [scanIntToken_neg_decimal hall hc0]
    show parseIntTok ('-' :: c :: rest) = some z
    have hfin : -((decValue (c :: rest) : Nat) : Int) = z := by rw [hval]; omega
    rw [parseIntTok_neg_decimal hall hc0 hle, hfin]
  · subst hz
    decide
  · have habs : 1 ≤ z.natAbs := by omega
    obtain ⟨c, rest, hds⟩ : ∃ c rest, natDecL z.natAbs = c :: rest := by
      cases hh : natDecL z.natAbs with
      | nil => exact absurd hh (natDecL_ne_nil _)
      | cons a b => exact ⟨a, b, rfl⟩
    have hall : ∀ x ∈ c :: rest, isDecDigit x = true := by
      rw [← hds]; exact natDecL_all_dec _
    have hc0 : c ≠ '0' := natDecL_head_ne_zero _ (by omega) c rest hds
    have hval : decValue (c :: rest) = z.natAbs := by
      rw [← hds]; exact decValue_natDecL _
    have hlt : (decValue (c :: rest) : Int) < 2 ^ 63 := by
      rw [hval]; omega
    have hrepr : intDec z = String.mk (c :: rest) := by
      rw [intDec, if_neg (by omega : ¬ z < 0), natDec, hds]
    rw [hrepr]
    show (scanIntToken (c :: rest)).bind parseIntTok = some z
    rw [scanIntToken_decimal hall hc0]
    show parseIntTok (c :: rest) = some z
    have hfin : ((decValue (c :: rest) : Nat) : Int) = z := by rw [hval]; omega
    rw [parseIntTok_decimal hall hc0 hlt, hfin]

/-! ## Fatal conditions

Every fatal path of the package — `PrintUsageAndExit` with a nonzero status,
and the two Go `panic`s reachable from `Parse`/`GetInt`/`Get`, plus the
compile-time panics of `NewOptions` — is an `Err` value. -/

inductive Err where
  /-- `Parse`: "Unexpected argument: <tok>" when `UnknownValuesFatal` is set. -/
  | unexpectedArg (tok : String)
  /-- `Parse` callback: "Unkown option: <name>" (sic). -/
  | unknownOption (name : String)
  /-- `Parse` callback: "Missing argument: <name>". -/
  | missingArgument (name : String)
  /-- `Parse` cluster branch: "Unexpected argument: <short>: <value>". -/
  | unexpectedArgument (name val : String)
  /-- `Parse` non-cluster branch: the `panic("Unexpected argument: ...")`. -/
  | unexpectedArgumentPanic (name val : String)
  /-- `GetInt`: "Bad integer value for option: <flag>: <val>". -/
  | badIntegerValue (flag val : String)
  /-- `Get`/`Have`: "[Programmer error] Unknown option: <flag>". -/
  | programmerUnknownOption (flag : String)
  /-- `NewOptions`: "<line>: no parse: <text>". -/
  | noParse (line : Nat) (text : String)
  /-- `NewOptions`: "<line>: duplicate name: <name>". -/
  | duplicateName (line : Nat) (name : String)
  /-- `NewOptions`: "<line>: bad name: <name>". -/
  | badName (line : Nat) (name : String)
  deriving DecidableEq, Repr

deriving instance DecidableEq for Except

/-! ## The `Options` parse result and its accessors -/

/-- The `Options` struct: `opts`, `known`, and the exported `Flags`, `Extra`,
`Leftover` fields. -/
structure Options where
  opts : List (String × String)
  known : List String
  flags : List (List String)
  extra : List String
  leftover : List String
  deriving DecidableEq, Repr

/-- `Options.Get`: the stored value; the empty string for a known flag with no
value; a programmer-error panic for an unknown flag. -/
def Options.get (o : Options) (flag : String) : Except Err String :=
  match alookup flag o.opts with
  | some val => .ok val
  | none =>
    if o.known.contains flag then .ok "" else .error (.programmerUnknownOption flag)

/-- `Options.GetInt`: empty string is zero, otherwise the value must scan as an
integer (`fmt.Sscan`) or the "Bad integer value" panic is raised. -/
def Options.getInt (o : Options) (flag : String) : Except Err Int :=
  match o.get flag with
  | .error e => .error e
  | .ok val =>
    if val = "" then .ok 0
    else
      match sscanInt val with
      | some num => .ok num
      | none => .error (.badIntegerValue flag val)

/-! ## The compiled `OptionSpec` -/

structure OptionSpec where
  usage : String
  unknownOptionsFatal : Bool
  unknownValuesFatal : Bool
  aliases : List (String × String)
  defaults : List (String × String)
  requiresArg : List String
  deriving DecidableEq, Repr

def OptionSpec.setUnknownOptionsFatal (s : OptionSpec) (val : Bool) : OptionSpec :=
  { s with unknownOptionsFatal := val }

def OptionSpec.setUnknownValuesFatal (s : OptionSpec) (val : Bool) : OptionSpec :=
  { s with unknownValuesFatal := val }

/-! ## Flag-token decomposition

`flagRe = ^((--?)([-\w]+))(=(.*))?$`, with Go's leftmost/backtracking
semantics: the dash group takes two dashes only when a `[-\w]` character
follows, the name is the maximal `[-\w]` run, and an inline value requires a
literal `=`; `.` does not match a newline. -/

structure FlagTok where
  presented : String
  double : Bool
  name : String
  selfVal : Option String
  deriving DecidableEq, Repr

/-- The backtracking of `(--?)([-\w]+)`: the dash group takes both dashes
only when a name character follows. -/
def dashSplit (rest0 : List Char) : Bool × List Char :=
  match rest0 with
  | '-' :: c :: r => if isNameChar c then (true, c :: r) else (false, rest0)
  | _ => (false, rest0)

def decodeFlag (tok : String) : Option FlagTok :=
  match tok.data with
  | '-' :: rest0 =>
    let dt := dashSplit rest0
    let nm := dt.2.takeWhile isNameChar
    let after := dt.2.dropWhile isNameChar
    if nm.isEmpty then none
    else
      let presented := String.mk ((if dt.1 then ['-', '-'] else ['-']) ++ nm)
      match after with
      | [] => some ⟨presented, dt.1, String.mk nm, none⟩
      | '=' :: v =>
        if v.contains '\n' then none
        else some ⟨presented, dt.1, String.mk nm, some (String.mk v)⟩
      | _ => none
  | _ => none

/-- `presentedFlagName[len(presentedFlagName)-1:]` (ASCII names). -/
def lastCharStr (s : String) : String :=
  match s.data.getLast? with
  | some c => String.mk [c]
  | none => ""

/-! ## The default parse callback -/

/-- Counting semantics of a no-argument occurrence:
`opt.opts[c] = fmt.Sprintf("%d", opt.GetInt(c)+1)` (64-bit wraparound). -/
def counting (o : Options) (canonical : String) : Except Err Options :=
  match o.getInt canonical with
  | .error e => .error e
  | .ok cur =>
    .ok { o with opts := ainsert canonical (intDec (wrap64 (cur + 1))) o.opts }

/-- One character of the clustering loop; `fullName` is the whole presented
flag name (used in the unknown-option message). -/
def clusterChar (s : OptionSpec) (fullName : String) (value : Option String)
    (isLast : Bool) (c : Char) (o : Options) : Except Err Options :=
  match alookup (String.mk [c]) s.aliases with
  | none =>
    if s.unknownOptionsFatal then .error (.unknownOption fullName) else .ok o
  | some canonicalC =>
    if s.requiresArg.contains canonicalC then
      match value, isLast with
      | some v, true => .ok { o with opts := ainsert canonicalC v o.opts }
      | _, _ => .error (.missingArgument (String.mk [c]))
    else
      match value, isLast with
      | some v, true => .error (.unexpectedArgument (String.mk [c]) v)
      | _, _ => counting o canonicalC

/-- The clustering loop `for j, shortR := range presentedFlagName`; a character
is last when nothing follows it. -/
def clusterGo (s : OptionSpec) (fullName : String) (value : Option String) :
    List Char → Options → Except Err Options
  | [], o => .ok o
  | c :: cs, o =>
    match clusterChar s fullName value cs.isEmpty c o with
    | .error e => .error e
    | .ok o' => clusterGo s fullName value cs o'

/-- The default parse callback (the closure installed when `ParseCallback` is
nil): clustering for a single-dash multi-character name, otherwise the shared
known/unknown and argument/no-argument branching; finally the occurrence is
recorded in `flags`. -/
def defaultCallback (s : OptionSpec) (presented : String) (double : Bool)
    (name : String) (value : Option String) (o : Options) : Except Err Options :=
  let recorded : Options → Options := fun o' =>
    match value with
    | some v => { o' with flags := o'.flags ++ [[presented, v]] }
    | none => { o' with flags := o'.flags ++ [[presented]] }
  if double = false ∧ 1 < name.data.length then
    match clusterGo s name value name.data o with
    | .error e => .error e
    | .ok o' => .ok (recorded o')
  else
    match alookup name s.aliases with
    | none =>
      if s.unknownOptionsFatal then .error (.unknownOption name) else .ok (recorded o)
    | some canonical =>
      if s.requiresArg.contains canonical then
        match value with
        | none => .error (.missingArgument name)
        | some v => .ok (recorded { o with opts := ainsert canonical v o.opts })
      else
        match value with
        | some v => .error (.unexpectedArgumentPanic name v)
        | none =>
          match counting o canonical with
          | .error e => .error e
          | .ok o' => .ok (recorded o')

/-! ## The scan loop of `Parse` -/

/-- The token loop of `Parse`; the index bump `i++` of `arg()` appears as
consuming a second token from the list. -/
def parseGo (s : OptionSpec) : List String → Options → Except Err Options
  | [], o => .ok o
  | tok :: rest, o =>
    if tok = "--" then .ok { o with leftover := o.leftover ++ rest }
    else
      match decodeFlag tok with
      | none =>
        if s.unknownValuesFatal then .error (.unexpectedArg tok)
        else parseGo s rest { o with extra := o.extra ++ [tok] }
      | some ft =>
        let known := (alookup ft.name s.aliases).isSome
        let canonical := (alookup ft.name s.aliases).getD ""
        let maybeClustering := !known && !ft.double
        let nextArg : Option String := rest.head?
        let lastClustered := (alookup (lastCharStr ft.name) s.aliases).getD ""
        let needsArg :=
          (known && s.requiresArg.contains canonical)
          || (!known && (match nextArg with
               | some na => !(na.data.head? == some '-')
               | none => false))
          || (maybeClustering && ft.selfVal.isSome)
          || (maybeClustering && s.requiresArg.contains lastClustered)
        if needsArg then
          match ft.selfVal with
          | some v =>
            match defaultCallback s ft.presented ft.double ft.name (some v) o with
            | .error e => .error e
            | .ok o' => parseGo s rest o'
          | none =>
            match defaultCallback s ft.presented ft.double ft.name nextArg o with
            | .error e => .error e
            | .ok o' =>
              match rest with
              | [] => parseGo s [] o'
              | _ :: rest2 => parseGo s rest2 o'
        else
          match defaultCallback s ft.presented ft.double ft.name none o with
          | .error e => .error e
          | .ok o' => parseGo s rest o'

/-- `OptionSpec.Parse`: seed `opts` from the defaults and `known` from the
alias targets, then scan. -/
def parse (s : OptionSpec) (args : List String) : Except Err Options :=
  parseGo s args
    { opts := s.defaults.foldl (fun m kv => ainsert kv.1 kv.2 m) []
      known := s.aliases.map Prod.snd
      flags := []
      extra := []
      leftover := [] }

/-! ## The spec compiler `NewOptions` -/

def prettyFlag (flg : String) : String :=
  if flg.data.length = 1 then "-" ++ flg else "--" ++ flg

/-- `strings.Split` on a one-character separator. -/
def splitOnChar (sep : Char) : List Char → List (List Char)
  | [] => [[]]
  | c :: r =>
    match splitOnChar sep r with
    | [] => [[]]
    | h :: t => if c = sep then [] :: h :: t else (c :: h) :: t

def splitLines (s : String) : List String :=
  (splitOnChar '\n' s.data).map String.mk

/-- `flagSpec = ^([-\w,]+)(=?)\s+(.*)$` applied to one option line: the names
group, whether the `=` marker is present, and the description. -/
def parseOptionLine (l : String) : Option (List String × Bool × String) :=
  let cs := l.data
  let names := cs.takeWhile isNameCommaChar
  let rest := cs.dropWhile isNameCommaChar
  if names.isEmpty then none
  else
    let er : Bool × List Char :=
      match rest with
      | '=' :: r => (true, r)
      | _ => (false, rest)
    match er.2 with
    | c :: _ =>
      if isRegexSpace c then
        some ((splitOnChar ',' names).map String.mk, er.1,
          String.mk (er.2.dropWhile isRegexSpace))
      else none
    | [] => none

/-- `defaultValue = \[(.*)\]$` scanning for the leftmost `[` whose suffix the
rest of the pattern matches (`.` not matching a newline). -/
def findDefaultAux : List Char → Option (List Char)
  | [] => none
  | '[' :: r => if r.contains '\n' then findDefaultAux r else some r
  | _ :: r => findDefaultAux r

def findDefault (desc : List Char) : Option (List Char) :=
  match desc.getLast? with
  | some ']' => findDefaultAux desc.dropLast
  | _ => none

/-- The per-name registration loop of an option line: duplicate check, bad-name
check, then `s.aliases[name] = canonical`. -/
def registerNames (lineNo : Nat) (canonical : String) :
    List String → List (String × String) → Except Err (List (String × String))
  | [], al => .ok al
  | n :: rest, al =>
    if (alookup n al).isSome then .error (.duplicateName lineNo n)
    else if n = "" ∨ n = "-" ∨ n = "--" then .error (.badName lineNo n)
    else registerNames lineNo canonical rest (ainsert n canonical al)

/-- The line loop of `NewOptions`; `stanza` is 0 while reading the synopsis and
1 after the `--` separator line. -/
def newOptionsGo : List String → Nat → Nat → OptionSpec → Except Err OptionSpec
  | [], _, _, s => .ok s
  | l :: rest, n, 0, s =>
    if l = "--" then newOptionsGo rest (n + 1) 1 { s with usage := s.usage ++ "\n" }
    else newOptionsGo rest (n + 1) 0 { s with usage := s.usage ++ l ++ "\n" }
  | l :: rest, n, _ + 1, s =>
    if l = "" then newOptionsGo rest (n + 1) 1 { s with usage := s.usage ++ "\n" }
    else
      match parseOptionLine l with
      | none => .error (.noParse n l)
      | some (names, eq, desc) =>
        let canonical := (names.getLast?).getD ""
        match registerNames n canonical names s.aliases with
        | .error e => .error e
        | .ok al =>
          let req := if eq then s.requiresArg ++ [canonical] else s.requiresArg
          let defs :=
            match findDefault desc.data with
            | some d => ainsert canonical (String.mk d) s.defaults
            | none => s.defaults
          let usage' := s.usage ++ "  " ++
            String.intercalate ", " (names.map prettyFlag) ++
            (if eq then "=" else "") ++ "  " ++ desc ++ "\n"
          newOptionsGo rest (n + 1) 1
            { s with
              usage := usage'
              aliases := al
              defaults := defs
              requiresArg := req }

/-- `NewOptions`: fresh spec with `UnknownOptionsFatal` set, then the line
loop over `strings.Split(spec, "\n")`. -/
def newOptions (spec : String) : Except Err OptionSpec :=
  newOptionsGo (splitLines spec) 0 0
    { usage := "", unknownOptionsFatal := true, unknownValuesFatal := false,
      aliases := [], defaults := [], requiresArg := [] }

/-! ## Decoding properly-presented aliases

`prettyFlag a` is how the package itself renders an alias in the usage text;
these lemmas compute `decodeFlag` on such tokens. -/

theorem mk_data (s : String) : String.mk s.data = s := rfl

theorem dropWhile_eq_nil_of_all {p : Char → Bool} {l : List Char}
    (h : ∀ c ∈ l, p c = true) : l.dropWhile p = [] := by
  induction l with
  | nil => rfl
  | cons c r ih =>
    simp [List.dropWhile_cons, h c (by simp), ih fun x hx => h x (by simp [hx])]

theorem dropWhile_append_of_all {p : Char → Bool} {l l' : List Char}
    (h : ∀ c ∈ l, p c = true) :
    (l ++ l').dropWhile p = l'.dropWhile p := by
  induction l with
  | nil => rfl
  | cons c r ih =>
    simp [List.dropWhile_cons, h c (by simp), ih fun x hx => h x (by simp [hx])]

theorem nameChar_ne_eq {c : Char} (h : isNameChar c = true) : c ≠ '=' := by
  intro hc
  subst hc
  simp [isNameChar, isWordChar] at h

theorem prettyFlag_data (a : String) :
    (prettyFlag a).data =
      if a.data.length = 1 then '-' :: a.data else '-' :: '-' :: a.data := by
  unfold prettyFlag
  by_cases h : a.data.length = 1
  · rw [if_pos h, if_pos h, String.data_append]
    try rfl
  · rw [if_neg h, if_neg h, String.data_append]
    try rfl

theorem prettyFlag_ne_terminator (a : String) (hne : a.data ≠ [])
    (hdash : a ≠ "-") : prettyFlag a ≠ "--" := by
  intro h
  have hd : (prettyFlag a).data = ['-', '-'] := by
    rw [h]
    try rfl
  rw [prettyFlag_data] at hd
  by_cases h1 : a.data.length = 1
  · rw [if_pos h1] at hd
    have ha : a.data = ['-'] := by
      cases hda : a.data with
      | nil => exact absurd hda hne
      | cons x xs =>
        rw [hda] at hd
        simp at hd
        rw [hd.1, hd.2]
    exact hdash (String.ext ha)
  · rw [if_neg h1] at hd
    have ha : a.data = [] := by simpa using hd
    exact hne ha

theorem inline_ne_terminator (a v : String) :
    prettyFlag a ++ "=" ++ v ≠ "--" := by
  intro h
  have hd : (prettyFlag a ++ "=" ++ v).data = ['-', '-'] := by
    rw [h]
    try rfl
  rw [String.data_append, String.data_append, prettyFlag_data,
    show ("=" : String).data = ['='] from rfl] at hd
  by_cases h1 : a.data.length = 1
  · rw [if_pos h1] at hd
    have hlen := congrArg List.length hd
    simp only [List.length_append, List.length_cons, List.length_nil] at hlen
    omega
  · rw [if_neg h1] at hd
    have hlen := congrArg List.length hd
    simp only [List.length_append, List.length_cons, List.length_nil] at hlen
    omega

theorem dashSplit_single (c : Char) : dashSplit [c] = (false, [c]) := by
  unfold dashSplit
  split
  · rename_i c2 r hpat
    simp at hpat
  · rfl

theorem dashSplit_dash (c : Char) (r : List Char) (hc : isNameChar c = true) :
    dashSplit ('-' :: c :: r) = (true, c :: r) := by
  simp [dashSplit, hc]

theorem dashSplit_not_dash {c : Char} (rest : List Char) (hc : c ≠ '-') :
    dashSplit (c :: rest) = (false, c :: rest) := by
  unfold dashSplit
  split
  · rename_i c2 r hpat
    simp only [List.cons.injEq] at hpat
    exact absurd hpat.1 hc
  · rfl

/-- Decoding `-c` for a registered-shaped single-character alias. -/
theorem decodeFlag_pretty_single (c : Char) (hcname : isNameChar c = true) :
    decodeFlag (String.mk ['-', c]) =
      some ⟨String.mk ['-', c], false, String.mk [c], none⟩ := by
  simp [decodeFlag, dashSplit_single, List.takeWhile_cons, List.dropWhile_cons,
    hcname]

/-- Decoding `--a` for a well-formed alias `a` (any length). -/
theorem decodeFlag_pretty_multi (a : String) {c : Char} {cs : List Char}
    (hc : a.data = c :: cs)
    (hchars : ∀ x ∈ a.data, isNameChar x = true) :
    decodeFlag ("--" ++ a) = some ⟨"--" ++ a, true, a, none⟩ := by
  have hcname : isNameChar c = true := hchars c (by simp [hc])
  have htake : (c :: cs).takeWhile isNameChar = c :: cs :=
    takeWhile_eq_self_of_all (by rw [← hc]; exact hchars)
  have hdrop : (c :: cs).dropWhile isNameChar = [] :=
    dropWhile_eq_nil_of_all (by rw [← hc]; exact hchars)
  have hstr : "--" ++ a = String.mk ('-' :: '-' :: c :: cs) :=
    String.ext (by rw [String.data_append, hc]; rfl)
  have ha : a = String.mk (c :: cs) := String.ext hc
  rw [hstr, ha]
  simp [decodeFlag, dashSplit_dash c cs hcname, hcname, htake, hdrop]

/-- Decoding `-c=v` (inline value on a single-character flag). -/
theorem decodeFlag_pretty_single_inline (c : Char) (v : String)
    (hcname : isNameChar c = true) (hcd : c ≠ '-')
    (hnl : v.data.contains '\n' = false) :
    decodeFlag (String.mk ('-' :: c :: '=' :: v.data)) =
      some ⟨String.mk ['-', c], false, String.mk [c], some v⟩ := by
  have heq : isNameChar '=' = false := by decide
  have hnl' : ('\n') ∉ v.data := by
    intro hm
    have hc2 : v.data.contains '\n' = true := List.elem_iff.mpr hm
    rw [hc2] at hnl
    cases hnl
  simp [decodeFlag, dashSplit_not_dash ('=' :: v.data) hcd, List.takeWhile_cons,
    List.dropWhile_cons, hcname, heq, hnl', mk_data]

/-- Decoding `--a=v` (inline value, double dash). -/
theorem decodeFlag_pretty_multi_inline (a : String) {c : Char} {cs : List Char}
    (hc : a.data = c :: cs)
    (hchars : ∀ x ∈ a.data, isNameChar x = true) (v : String)
    (hnl : v.data.contains '\n' = false) :
    decodeFlag ("--" ++ a ++ "=" ++ v) =
      some ⟨"--" ++ a, true, a, some v⟩ := by
  have hcname : isNameChar c = true := hchars c (by simp [hc])
  have heq : isNameChar '=' = false := by decide
  have hall : ∀ x ∈ c :: cs, isNameChar x = true := by rw [← hc]; exact hchars
  have hallcs : ∀ x ∈ cs, isNameChar x = true := fun x hx => hall x (by simp [hx])
  have htake : (cs ++ '=' :: v.data).takeWhile isNameChar = cs := by
    rw [takeWhile_append_of_all hallcs, List.takeWhile_cons, heq]
    simp
  have hdrop : (cs ++ '=' :: v.data).dropWhile isNameChar = '=' :: v.data := by
    rw [dropWhile_append_of_all hallcs, List.dropWhile_cons, heq]
    simp
  have hnl' : ('\n') ∉ v.data := by
    intro hm
    have hc2 : v.data.contains '\n' = true := List.elem_iff.mpr hm
    rw [hc2] at hnl
    cases hnl
  have hstr : "--" ++ a ++ "=" ++ v = String.mk ('-' :: '-' :: c :: (cs ++ '=' :: v.data)) :=
    String.ext (by
      rw [String.data_append, String.data_append, String.data_append, hc,
        show ("--" : String).data = ['-', '-'] from rfl,
        show ("=" : String).data = ['='] from rfl]
      simp)
  have hstr2 : "--" ++ a = String.mk ('-' :: '-' :: c :: cs) :=
    String.ext (by rw [String.data_append, hc]; rfl)
  have ha : a = String.mk (c :: cs) := String.ext hc
  rw [hstr, hstr2, ha]
  simp [decodeFlag, dashSplit_dash c (cs ++ '=' :: v.data) hcname, hcname,
    List.takeWhile_cons, List.dropWhile_cons, htake, hdrop, hnl', mk_data]

/-! ## Scan-step lemmas -/

/-- A known option whose canonical name takes no argument never consumes a
token and its occurrence is handed to the callback with no value — whatever
inline value the token carried. -/
theorem parseGo_cons_known_noarg (s : OptionSpec) (tok p name canonical : String)
    (dbl : Bool) (sv : Option String) (rest : List String) (o : Options)
    (hne : tok ≠ "--") (hdec : decodeFlag tok = some ⟨p, dbl, name, sv⟩)
    (hreg : alookup name s.aliases = some canonical)
    (hnoarg : s.requiresArg.contains canonical = false) :
    parseGo s (tok :: rest) o =
      match defaultCallback s p dbl name none o with
      | .error e => .error e
      | .ok o' => parseGo s rest o' := by
  have hno : canonical ∉ s.requiresArg := by simpa using hnoarg
  simp only [parseGo, if_neg hne, hdec, hreg]
  simp [hnoarg, hno]

/-- A known argument-requiring option with an inline value consumes nothing
and passes the inline value to the callback. -/
theorem parseGo_cons_known_arg_inline (s : OptionSpec)
    (tok p name canonical v : String) (dbl : Bool) (rest : List String)
    (o : Options)
    (hne : tok ≠ "--") (hdec : decodeFlag tok = some ⟨p, dbl, name, some v⟩)
    (hreg : alookup name s.aliases = some canonical)
    (harg : s.requiresArg.contains canonical = true) :
    parseGo s (tok :: rest) o =
      match defaultCallback s p dbl name (some v) o with
      | .error e => .error e
      | .ok o' => parseGo s rest o' := by
  have ha : canonical ∈ s.requiresArg := by simpa using harg
  simp only [parseGo, if_neg hne, hdec, hreg]
  simp [harg, ha]

/-- A known argument-requiring option without an inline value consumes the
following token as the value. -/
theorem parseGo_cons_known_arg_consume (s : OptionSpec)
    (tok p name canonical nxt : String) (dbl : Bool) (rest : List String)
    (o : Options)
    (hne : tok ≠ "--") (hdec : decodeFlag tok = some ⟨p, dbl, name, none⟩)
    (hreg : alookup name s.aliases = some canonical)
    (harg : s.requiresArg.contains canonical = true) :
    parseGo s (tok :: nxt :: rest) o =
      match defaultCallback s p dbl name (some nxt) o with
      | .error e => .error e
      | .ok o' => parseGo s rest o' := by
  have ha : canonical ∈ s.requiresArg := by simpa using harg
  simp only [parseGo, if_neg hne, hdec, hreg]
  simp [harg, ha]

/-! ## Callback reduction lemmas -/

theorem defaultCallback_noncluster_noarg (s : OptionSpec)
    (p name canonical : String) (dbl : Bool) (o : Options)
    (hnc : ¬(dbl = false ∧ 1 < name.data.length))
    (hreg : alookup name s.aliases = some canonical)
    (hnoarg : s.requiresArg.contains canonical = false) :
    defaultCallback s p dbl name none o =
      match counting o canonical with
      | .error e => .error e
      | .ok o' => .ok { o' with flags := o'.flags ++ [[p]] } := by
  have hno : canonical ∉ s.requiresArg := by simpa using hnoarg
  simp only [defaultCallback, if_neg hnc, hreg]
  simp [hnoarg, hno]

theorem defaultCallback_noncluster_arg (s : OptionSpec)
    (p name canonical v : String) (dbl : Bool) (o : Options)
    (hnc : ¬(dbl = false ∧ 1 < name.data.length))
    (hreg : alookup name s.aliases = some canonical)
    (harg : s.requiresArg.contains canonical = true) :
    defaultCallback s p dbl name (some v) o =
      .ok { o with opts := ainsert canonical v o.opts,
                   flags := o.flags ++ [[p, v]] } := by
  have ha : canonical ∈ s.requiresArg := by simpa using harg
  simp only [defaultCallback, if_neg hnc, hreg]
  simp [harg, ha]

theorem defaultCallback_cluster (s : OptionSpec) (p name : String)
    (value : Option String) (o : Options) (hlen : 1 < name.data.length) :
    defaultCallback s p false name value o =
      match clusterGo s name value name.data o with
      | .error e => .error e
      | .ok o' =>
        .ok (match value with
             | some v => { o' with flags := o'.flags ++ [[p, v]] }
             | none => { o' with flags := o'.flags ++ [[p]] }) := by
  simp only [defaultCallback]
  simp [hlen, show 1 < name.length from hlen]

/-! ## Properly-presented occurrences, end to end -/

theorem pretty_not_cluster (a : String) :
    ¬((a.data.length != 1) = false ∧ 1 < a.data.length) := by
  rintro ⟨h1, h2⟩
  have h3 : a.data.length = 1 := by simpa using h1
  omega

/-- Decoding `prettyFlag a`, packaged over both lengths. -/
theorem decodeFlag_prettyFlag (a : String) (hne : a.data ≠ [])
    (hchars : ∀ c ∈ a.data, isNameChar c = true) (hdash : a ≠ "-") :
    decodeFlag (prettyFlag a) =
      some ⟨prettyFlag a, a.data.length != 1, a, none⟩ := by
  by_cases h1 : a.data.length = 1
  · obtain ⟨c, hc⟩ := List.length_eq_one.mp h1
    have hpf : prettyFlag a = String.mk ['-', c] :=
      String.ext (by rw [prettyFlag_data, if_pos h1, hc])
    have ha : a = String.mk [c] := String.ext hc
    have hb : (a.data.length != 1) = false := by rw [h1]; rfl
    rw [hb, hpf, ha]
    exact decodeFlag_pretty_single c (hchars c (by simp [hc]))
  · obtain ⟨c, cs, hc⟩ : ∃ c cs, a.data = c :: cs := by
      cases hda : a.data with
      | nil => exact absurd hda hne
      | cons x xs => exact ⟨x, xs, rfl⟩
    have hpf : prettyFlag a = "--" ++ a :=
      String.ext (by rw [prettyFlag_data, if_neg h1, String.data_append]; rfl)
    have hb : (a.data.length != 1) = true := by simpa using h1
    rw [hb, hpf]
    exact decodeFlag_pretty_multi a hc hchars

/-- Decoding `prettyFlag a ++ "=" ++ v`, packaged over both lengths. -/
theorem decodeFlag_prettyFlag_inline (a v : String) (hne : a.data ≠ [])
    (hchars : ∀ c ∈ a.data, isNameChar c = true) (hdash : a ≠ "-")
    (hnl : v.data.contains '\n' = false) :
    decodeFlag (prettyFlag a ++ "=" ++ v) =
      some ⟨prettyFlag a, a.data.length != 1, a, some v⟩ := by
  by_cases h1 : a.data.length = 1
  · obtain ⟨c, hc⟩ := List.length_eq_one.mp h1
    have hcd : c ≠ '-' := by
      intro hdd
      refine hdash (String.ext ?_)
      rw [hc, hdd]
      try rfl
    have hpf : prettyFlag a = String.mk ['-', c] :=
      String.ext (by rw [prettyFlag_data, if_pos h1, hc])
    have ha : a = String.mk [c] := String.ext hc
    have htok : prettyFlag a ++ "=" ++ v = String.mk ('-' :: c :: '=' :: v.data) :=
      String.ext (by
        rw [String.data_append, String.data_append, prettyFlag_data, if_pos h1, hc,
          show ("=" : String).data = ['='] from rfl]
        simp)
    have hb : (a.data.length != 1) = false := by rw [h1]; rfl
    rw [hb, htok, hpf, ha]
    exact decodeFlag_pretty_single_inline c v (hchars c (by simp [hc])) hcd hnl
  · obtain ⟨c, cs, hc⟩ : ∃ c cs, a.data = c :: cs := by
      cases hda : a.data with
      | nil => exact absurd hda hne
      | cons x xs => exact ⟨x, xs, rfl⟩
    have hpf : prettyFlag a = "--" ++ a :=
      String.ext (by rw [prettyFlag_data, if_neg h1, String.data_append]; rfl)
    have hb : (a.data.length != 1) = true := by simpa using h1
    rw [hb, hpf]
    exact decodeFlag_pretty_multi_inline a hc hchars v hnl

/-- A known no-argument option presented via `prettyFlag` performs one
counting step and records one flags entry. -/
theorem parseGo_pretty_noarg (s : OptionSpec) (a canonical : String)
    (rest : List String) (o : Options)
    (hreg : alookup a s.aliases = some canonical)
    (hnoarg : s.requiresArg.contains canonical = false)
    (hne : a.data ≠ []) (hchars : ∀ c ∈ a.data, isNameChar c = true)
    (hdash : a ≠ "-") :
    parseGo s (prettyFlag a :: rest) o =
      match counting o canonical with
      | .error e => .error e
      | .ok o' => parseGo s rest { o' with flags := o'.flags ++ [[prettyFlag a]] } := by
  have hdec := decodeFlag_prettyFlag a hne hchars hdash
  rw [parseGo_cons_known_noarg s (prettyFlag a) (prettyFlag a) a canonical
    (a.data.length != 1) none rest o (prettyFlag_ne_terminator a hne hdash)
    hdec hreg hnoarg]
  rw [defaultCallback_noncluster_noarg s (prettyFlag a) a canonical
    (a.data.length != 1) o (pretty_not_cluster a) hreg hnoarg]
  cases counting o canonical <;> rfl

/-- An inline value handed to a known no-argument option presented unclustered
is silently dropped: the token behaves exactly like the bare flag. -/
theorem parseGo_pretty_noarg_inline (s : OptionSpec) (a canonical v : String)
    (rest : List String) (o : Options)
    (hreg : alookup a s.aliases = some canonical)
    (hnoarg : s.requiresArg.contains canonical = false)
    (hne : a.data ≠ []) (hchars : ∀ c ∈ a.data, isNameChar c = true)
    (hdash : a ≠ "-") (hnl : v.data.contains '\n' = false) :
    parseGo s ((prettyFlag a ++ "=" ++ v) :: rest) o =
      parseGo s (prettyFlag a :: rest) o := by
  have hdec := decodeFlag_prettyFlag_inline a v hne hchars hdash hnl
  have hdec' := decodeFlag_prettyFlag a hne hchars hdash
  rw [parseGo_cons_known_noarg s (prettyFlag a ++ "=" ++ v) (prettyFlag a) a
    canonical (a.data.length != 1) (some v) rest o (inline_ne_terminator a v)
    hdec hreg hnoarg]
  rw [parseGo_cons_known_noarg s (prettyFlag a) (prettyFlag a) a canonical
    (a.data.length != 1) none rest o (prettyFlag_ne_terminator a hne hdash)
    hdec' hreg hnoarg]

/-- For a known argument-requiring option, the inline form `--name=value` and
the two-token form `--name value` scan identically. -/
theorem parseGo_pretty_arg_forms (s : OptionSpec) (a canonical v : String)
    (rest : List String) (o : Options)
    (hreg : alookup a s.aliases = some canonical)
    (harg : s.requiresArg.contains canonical = true)
    (hne : a.data ≠ []) (hchars : ∀ c ∈ a.data, isNameChar c = true)
    (hdash : a ≠ "-") (hnl : v.data.contains '\n' = false) :
    parseGo s ((prettyFlag a ++ "=" ++ v) :: rest) o =
      parseGo s (prettyFlag a :: v :: rest) o := by
  have hdec := decodeFlag_prettyFlag_inline a v hne hchars hdash hnl
  have hdec' := decodeFlag_prettyFlag a hne hchars hdash
  rw [parseGo_cons_known_arg_inline s (prettyFlag a ++ "=" ++ v) (prettyFlag a)
    a canonical v (a.data.length != 1) rest o (inline_ne_terminator a v) hdec
    hreg harg]
  rw [parseGo_cons_known_arg_consume s (prettyFlag a) (prettyFlag a) a canonical
    v (a.data.length != 1) rest o (prettyFlag_ne_terminator a hne hdash) hdec'
    hreg harg]

/-- The inline form stores the value for the canonical name and records one
flags entry. -/
theorem parseGo_pretty_arg_inline (s : OptionSpec) (a canonical v : String)
    (rest : List String) (o : Options)
    (hreg : alookup a s.aliases = some canonical)
    (harg : s.requiresArg.contains canonical = true)
    (hne : a.data ≠ []) (hchars : ∀ c ∈ a.data, isNameChar c = true)
    (hdash : a ≠ "-") (hnl : v.data.contains '\n' = false) :
    parseGo s ((prettyFlag a ++ "=" ++ v) :: rest) o =
      parseGo s rest { o with opts := ainsert canonical v o.opts,
                              flags := o.flags ++ [[prettyFlag a, v]] } := by
  have hdec := decodeFlag_prettyFlag_inline a v hne hchars hdash hnl
  rw [parseGo_cons_known_arg_inline s (prettyFlag a ++ "=" ++ v) (prettyFlag a)
    a canonical v (a.data.length != 1) rest o (inline_ne_terminator a v) hdec
    hreg harg]
  rw [defaultCallback_noncluster_arg s (prettyFlag a) a canonical v
    (a.data.length != 1) o (pretty_not_cluster a) hreg harg]

/-! ## Single-dash multi-character tokens always cluster -/

theorem decodeFlag_single_dash_multi (name : String) {c : Char} {cs : List Char}
    (hc : name.data = c :: cs)
    (hchars : ∀ x ∈ name.data, isNameChar x = true) (hcd : c ≠ '-') :
    decodeFlag ("-" ++ name) = some ⟨"-" ++ name, false, name, none⟩ := by
  have htake : (c :: cs).takeWhile isNameChar = c :: cs :=
    takeWhile_eq_self_of_all (by rw [← hc]; exact hchars)
  have hdrop : (c :: cs).dropWhile isNameChar = [] :=
    dropWhile_eq_nil_of_all (by rw [← hc]; exact hchars)
  have hstr : "-" ++ name = String.mk ('-' :: c :: cs) :=
    String.ext (by rw [String.data_append, hc]; rfl)
  have hname : name = String.mk (c :: cs) := String.ext hc
  rw [hstr, hname]
  simp [decodeFlag, dashSplit_not_dash cs hcd, htake, hdrop]

theorem single_dash_ne_terminator (name : String) {c : Char} {cs : List Char}
    (hc : name.data = c :: cs) (hcd : c ≠ '-') : "-" ++ name ≠ "--" := by
  intro h
  have hd := congrArg String.data h
  rw [String.data_append, hc] at hd
  simp only [show ("-" : String).data = ['-'] from rfl,
    show ("--" : String).data = ['-', '-'] from rfl] at hd
  simp at hd
  exact hcd hd.1

/-- A single-dash multi-character token whose name is a registered
no-argument alias is nevertheless decoded character by character. -/
theorem parseGo_single_dash_registered_clusters (s : OptionSpec)
    (name canonical : String) (rest : List String) (o : Options)
    (hreg : alookup name s.aliases = some canonical)
    (hnoarg : s.requiresArg.contains canonical = false)
    (hlen : 1 < name.data.length)
    (hchars : ∀ c ∈ name.data, isNameChar c = true)
    (hhead : name.data.head? ≠ some '-') :
    parseGo s (("-" ++ name) :: rest) o =
      match clusterGo s name none name.data o with
      | .error e => .error e
      | .ok o' => parseGo s rest { o' with flags := o'.flags ++ [["-" ++ name]] } := by
  obtain ⟨c, cs, hc⟩ : ∃ c cs, name.data = c :: cs := by
    cases hda : name.data with
    | nil => rw [hda] at hlen; simp at hlen
    | cons x xs => exact ⟨x, xs, rfl⟩
  have hcd : c ≠ '-' := by
    intro hdd
    rw [hc, hdd] at hhead
    simp at hhead
  have hdec := decodeFlag_single_dash_multi name hc hchars hcd
  rw [parseGo_cons_known_noarg s ("-" ++ name) ("-" ++ name) name canonical
    false none rest o (single_dash_ne_terminator name hc hcd) hdec hreg hnoarg]
  rw [defaultCallback_cluster s ("-" ++ name) name none o hlen]
  cases clusterGo s name none name.data o <;> rfl

/-! ## Clustering: non-final characters never take the value -/

/-- Processing a run of cluster characters none of which is in last
position. -/
def clusterPrefixGo (s : OptionSpec) (fullName : String) (value : Option String) :
    List Char → Options → Except Err Options
  | [], o => .ok o
  | c :: cs, o =>
    match clusterChar s fullName value false c o with
    | .error e => .error e
    | .ok o' => clusterPrefixGo s fullName value cs o'

theorem clusterGo_append (s : OptionSpec) (fn : String) (value : Option String)
    (pre rest : List Char) (o : Options) (hrest : rest ≠ []) :
    clusterGo s fn value (pre ++ rest) o =
      match clusterPrefixGo s fn value pre o with
      | .error e => .error e
      | .ok o' => clusterGo s fn value rest o' := by
  induction pre generalizing o with
  | nil =>
    simp only [List.nil_append, clusterPrefixGo]
  | cons c cs ih =>
    have hne : (cs ++ rest).isEmpty = false := by
      cases rest with
      | nil => exact absurd rfl hrest
      | cons y ys => cases cs <;> rfl
    simp only [List.cons_append, clusterGo, clusterPrefixGo, List.append_eq, hne]
    cases hcc : clusterChar s fn value false c o with
    | error e => simp [hcc]
    | ok o' => simp [hcc, ih o']

/-- An argument-requiring option resolved at a non-final cluster position is a
fatal "missing argument" error, whatever value is attached to the token. -/
theorem clusterGo_nonfinal_requiresArg (s : OptionSpec) (fn : String)
    (value : Option String) (pre : List Char) (c : Char) (suf : List Char)
    (o o₁ : Options) (cc : String)
    (hpre : clusterPrefixGo s fn value pre o = .ok o₁)
    (hcc : alookup (String.mk [c]) s.aliases = some cc)
    (harg : s.requiresArg.contains cc = true)
    (hsuf : suf ≠ []) :
    clusterGo s fn value (pre ++ c :: suf) o =
      .error (.missingArgument (String.mk [c])) := by
  rw [clusterGo_append s fn value pre (c :: suf) o (by simp), hpre]
  have hempty : suf.isEmpty = false := by
    cases suf with
    | nil => exact absurd rfl hsuf
    | cons y ys => rfl
  simp only [clusterGo, hempty, clusterChar, hcc, harg]
  cases value <;> simp [harg]

/-! ## Unknown options with the fatal flag disabled -/

theorem defaultCallback_unknown (s : OptionSpec) (p name : String) (dbl : Bool)
    (value : Option String) (o : Options)
    (hnc : ¬(dbl = false ∧ 1 < name.data.length))
    (hunk : alookup name s.aliases = none)
    (hfatal : s.unknownOptionsFatal = false) :
    defaultCallback s p dbl name value o =
      .ok (match value with
           | some v => { o with flags := o.flags ++ [[p, v]] }
           | none => { o with flags := o.flags ++ [[p]] }) := by
  simp only [defaultCallback, if_neg hnc, hunk, hfatal]
  simp

theorem lastCharStr_single (name : String) {c : Char} (hc : name.data = [c]) :
    lastCharStr name = name := by
  rw [lastCharStr, hc]
  simp [String.ext hc]

/-- With fatal-on-unknown disabled, an unknown unclustered option with no
inline value consumes the following token exactly when it exists and does not
begin with a dash. -/
theorem parseGo_cons_unknown (s : OptionSpec) (tok p name : String) (dbl : Bool)
    (rest : List String) (o : Options)
    (hfatal : s.unknownOptionsFatal = false)
    (hne : tok ≠ "--") (hdec : decodeFlag tok = some ⟨p, dbl, name, none⟩)
    (hunk : alookup name s.aliases = none)
    (hshape : dbl = true ∨ name.data.length = 1)
    (hreq0 : s.requiresArg.contains "" = false) :
    parseGo s (tok :: rest) o =
      match rest with
      | [] => .ok { o with flags := o.flags ++ [[p]] }
      | next :: rest2 =>
        if next.data.head? = some '-' then
          parseGo s (next :: rest2) { o with flags := o.flags ++ [[p]] }
        else parseGo s rest2 { o with flags := o.flags ++ [[p, next]] } := by
  have hnc : ¬(dbl = false ∧ 1 < name.data.length) := by
    rintro ⟨h1, h2⟩
    rcases hshape with h | h
    · rw [h] at h1; cases h1
    · omega
  have hlast : (alookup (lastCharStr name) s.aliases).getD "" = "" ∨ dbl = true := by
    rcases hshape with h | h
    · exact Or.inr h
    · obtain ⟨c, hc⟩ := List.length_eq_one.mp h
      rw [lastCharStr_single name hc, hunk]
      exact Or.inl rfl
  have hcb := defaultCallback_unknown s p name dbl none o hnc hunk hfatal
  have hcb2 : ∀ v, defaultCallback s p dbl name (some v) o =
      .ok { o with flags := o.flags ++ [[p, v]] } :=
    fun v => defaultCallback_unknown s p name dbl (some v) o hnc hunk hfatal
  have hreq0' : "" ∉ s.requiresArg := by simpa using hreq0
  cases rest with
  | nil =>
    simp only [parseGo, if_neg hne, hdec, hunk]
    rcases hlast with h | h
    · simp [h, hreq0, hreq0', hcb]
    · subst h
      simp [hcb]
  | cons next rest2 =>
    simp only [parseGo, if_neg hne, hdec, hunk]
    by_cases hd : next.data.head? = some '-'
    · have hpre : (next.data.head? == some '-') = true := by simp [hd]
      rcases hlast with h | h
      · simp [h, hreq0, hreq0', hcb, hpre, hd]
      · subst h
        simp [hcb, hpre, hd]
    · have hpre : (next.data.head? == some '-') = false := by simp [hd]
      rcases hlast with h | h
      · simp [h, hreq0, hreq0', hcb2, hpre, hd]
      · subst h
        simp [hcb2, hpre, hd]

/-! ## The terminator token -/

/-- When the scanner reaches a `--` token, every remaining token goes verbatim
to `leftover`; nothing is parsed, nothing reaches `extra`, no error occurs. -/
theorem parseGo_terminator (s : OptionSpec) (rest : List String) (o : Options) :
    parseGo s ("--" :: rest) o = .ok { o with leftover := o.leftover ++ rest } := by
  simp [parseGo]

theorem parse_terminator (s : OptionSpec) (post : List String) :
    parse s ("--" :: post) = .ok
      { opts := s.defaults.foldl (fun m kv => ainsert kv.1 kv.2 m) []
        known := s.aliases.map Prod.snd
        flags := []
        extra := []
        leftover := post } := by
  rw [parse, parseGo_terminator]
  rfl

/-! ## Keys of the values map are declared canonicals -/

theorem alookup_ainsert_cases {k key val v : String} {m : List (String × String)}
    (h : alookup k (ainsert key val m) = some v) :
    k = key ∨ alookup k m = some v := by
  by_cases hk : k = key
  · exact Or.inl hk
  · right
    rw [alookup_ainsert_ne key k val m hk] at h
    exact h

theorem mem_ainsert_cases (key val : String) :
    ∀ (m : List (String × String)) (kv : String × String),
      kv ∈ ainsert key val m → kv.1 = key ∨ kv ∈ m := by
  intro m
  induction m with
  | nil =>
    intro kv h
    simp [ainsert] at h
    left
    rw [h]
  | cons p rest ih =>
    intro kv h
    obtain ⟨pk, pv⟩ := p
    rw [ainsert] at h
    by_cases hpk : pk = key
    · rw [if_pos hpk] at h
      rcases List.mem_cons.mp h with rfl | hr
      · exact Or.inl rfl
      · exact Or.inr (List.mem_cons_of_mem _ hr)
    · rw [if_neg hpk] at h
      rcases List.mem_cons.mp h with rfl | hr
      · exact Or.inr (List.mem_cons_self _ _)
      · rcases ih kv hr with h1 | h2
        · exact Or.inl h1
        · exact Or.inr (List.mem_cons_of_mem _ h2)

theorem counting_opts (o : Options) (c : String) (o' : Options)
    (h : counting o c = .ok o') :
    ∃ w, o'.opts = ainsert c w o.opts := by
  rw [counting] at h
  cases hg : o.getInt c with
  | error e =>
    rw [hg] at h
    cases h
  | ok cur =>
    rw [hg] at h
    cases h
    exact ⟨_, rfl⟩

theorem clusterChar_keys (s : OptionSpec) (fn : String) (value : Option String)
    (isLast : Bool) (ch : Char) (o o' : Options)
    (h : clusterChar s fn value isLast ch o = .ok o')
    (hk : ∀ k v, alookup k o.opts = some v → k ∈ s.aliases.map Prod.snd) :
    ∀ k v, alookup k o'.opts = some v → k ∈ s.aliases.map Prod.snd := by
  rw [clusterChar] at h
  cases hcc : alookup (String.mk [ch]) s.aliases with
  | none =>
    simp only [hcc] at h
    cases hf : s.unknownOptionsFatal with
    | true =>
      rw [hf] at h
      simp at h
    | false =>
      rw [hf] at h
      simp at h
      subst h
      exact hk
  | some cc =>
    simp only [hcc] at h
    have hmem : cc ∈ s.aliases.map Prod.snd := alookup_mem_values hcc
    by_cases hra : s.requiresArg.contains cc = true
    · rw [if_pos hra] at h
      cases value with
      | none => cases h
      | some v =>
        cases isLast with
        | false => cases h
        | true =>
          cases h
          intro k v' hkv
          replace hkv : alookup k (ainsert cc v o.opts) = some v' := hkv
          rcases alookup_ainsert_cases hkv with rfl | hrest
          · exact hmem
          · exact hk k v' hrest
    · rw [if_neg hra] at h
      have hcount : ∀ o₁, counting o cc = .ok o₁ →
          ∀ k v', alookup k o₁.opts = some v' → k ∈ s.aliases.map Prod.snd := by
        intro o₁ hcnt k v' hkv
        obtain ⟨w, hw⟩ := counting_opts o cc o₁ hcnt
        rw [hw] at hkv
        rcases alookup_ainsert_cases hkv with rfl | hrest
        · exact hmem
        · exact hk k v' hrest
      cases value with
      | none => exact hcount o' h
      | some v =>
        cases isLast with
        | true => cases h
        | false => exact hcount o' h

theorem clusterGo_keys (s : OptionSpec) (fn : String) (value : Option String) :
    ∀ (cs : List Char) (o o' : Options),
      clusterGo s fn value cs o = .ok o' →
      (∀ k v, alookup k o.opts = some v → k ∈ s.aliases.map Prod.snd) →
      ∀ k v, alookup k o'.opts = some v → k ∈ s.aliases.map Prod.snd := by
  intro cs
  induction cs with
  | nil =>
    intro o o' h hk
    cases h
    exact hk
  | cons c cs ih =>
    intro o o' h hk
    rw [clusterGo] at h
    cases hcc : clusterChar s fn value cs.isEmpty c o with
    | error e =>
      rw [hcc] at h
      cases h
    | ok o1 =>
      rw [hcc] at h
      exact ih o1 o' h (clusterChar_keys s fn value cs.isEmpty c o o1 hcc hk)

theorem defaultCallback_keys (s : OptionSpec) (p : String) (dbl : Bool)
    (name : String) (value : Option String) (o o' : Options)
    (h : defaultCallback s p dbl name value o = .ok o')
    (hk : ∀ k v, alookup k o.opts = some v → k ∈ s.aliases.map Prod.snd) :
    ∀ k v, alookup k o'.opts = some v → k ∈ s.aliases.map Prod.snd := by
  cases value with
  | none =>
    simp only [defaultCallback] at h
    by_cases hcl : dbl = false ∧ 1 < name.data.length
    · rw [if_pos hcl] at h
      cases hcg : clusterGo s name none name.data o with
      | error e =>
        rw [hcg] at h
        cases h
      | ok o1 =>
        rw [hcg] at h
        cases h
        exact clusterGo_keys s name none name.data o o1 hcg hk
    · rw [if_neg hcl] at h
      cases hal : alookup name s.aliases with
      | none =>
        simp only [hal] at h
        cases hf : s.unknownOptionsFatal with
        | true =>
          rw [hf] at h
          simp at h
        | false =>
          rw [hf] at h
          simp at h
          subst h
          exact hk
      | some canonical =>
        simp only [hal] at h
        have hmem : canonical ∈ s.aliases.map Prod.snd := alookup_mem_values hal
        by_cases hra : s.requiresArg.contains canonical = true
        · rw [if_pos hra] at h
          cases h
        · rw [if_neg hra] at h
          cases hcnt : counting o canonical with
          | error e =>
            rw [hcnt] at h
            cases h
          | ok o1 =>
            rw [hcnt] at h
            cases h
            intro k v' hkv
            replace hkv : alookup k o1.opts = some v' := hkv
            obtain ⟨w, hw⟩ := counting_opts o canonical o1 hcnt
            rw [hw] at hkv
            rcases alookup_ainsert_cases hkv with rfl | hrest
            · exact hmem
            · exact hk k v' hrest
  | some v =>
    simp only [defaultCallback] at h
    by_cases hcl : dbl = false ∧ 1 < name.data.length
    · rw [if_pos hcl] at h
      cases hcg : clusterGo s name (some v) name.data o with
      | error e =>
        rw [hcg] at h
        cases h
      | ok o1 =>
        rw [hcg] at h
        cases h
        exact clusterGo_keys s name (some v) name.data o o1 hcg hk
    · rw [if_neg hcl] at h
      cases hal : alookup name s.aliases with
      | none =>
        simp only [hal] at h
        cases hf : s.unknownOptionsFatal with
        | true =>
          rw [hf] at h
          simp at h
        | false =>
          rw [hf] at h
          simp at h
          subst h
          exact hk
      | some canonical =>
        simp only [hal] at h
        have hmem : canonical ∈ s.aliases.map Prod.snd := alookup_mem_values hal
        by_cases hra : s.requiresArg.contains canonical = true
        · rw [if_pos hra] at h
          cases h
          intro k v' hkv
          replace hkv : alookup k (ainsert canonical v o.opts) = some v' := hkv
          rcases alookup_ainsert_cases hkv with rfl | hrest
          · exact hmem
          · exact hk k v' hrest
        · rw [if_neg hra] at h
          cases h

/-- The scan loop never invents a key: any key present after scanning was
present before or is the canonical of a registered alias. -/
theorem parseGo_keys (s : OptionSpec) (n : Nat) :
    ∀ (args : List String), args.length ≤ n → ∀ (o o' : Options),
      parseGo s args o = .ok o' →
      (∀ k v, alookup k o.opts = some v → k ∈ s.aliases.map Prod.snd) →
      ∀ k v, alookup k o'.opts = some v → k ∈ s.aliases.map Prod.snd := by
  induction n with
  | zero =>
    intro args hlen o o' h hk
    have hnil : args = [] := List.eq_nil_of_length_eq_zero (Nat.le_zero.mp hlen)
    subst hnil
    cases h
    exact hk
  | succ m ih =>
    intro args hlen o o' h hk
    cases args with
    | nil =>
      cases h
      exact hk
    | cons tok rest =>
      have hr : rest.length ≤ m := by
        simp only [List.length_cons] at hlen
        omega
      by_cases hterm : tok = "--"
      · rw [parseGo, if_pos hterm] at h
        cases h
        exact hk
      · cases hdec : decodeFlag tok with
        | none =>
          rw [parseGo, if_neg hterm, hdec] at h
          cases hvf : s.unknownValuesFatal with
          | true =>
            rw [hvf] at h
            simp at h
          | false =>
            rw [hvf] at h
            simp at h
            exact ih rest hr _ o' h hk
        | some ft =>
          cases rest with
          | nil =>
            rw [parseGo, if_neg hterm] at h
            simp only [hdec, List.head?_nil] at h
            split at h
            · split at h
              · split at h
                · cases h
                · rename_i o1 heq
                  exact ih [] (by simp) o1 o' h
                    (defaultCallback_keys s _ _ _ _ o o1 heq hk)
              · split at h
                · cases h
                · rename_i o1 heq
                  exact ih [] (by simp) o1 o' h
                    (defaultCallback_keys s _ _ _ _ o o1 heq hk)
            · split at h
              · cases h
              · rename_i o1 heq
                exact ih [] (by simp) o1 o' h
                  (defaultCallback_keys s _ _ _ _ o o1 heq hk)
          | cons next rest2 =>
            have hr2 : rest2.length ≤ m := by
              simp only [List.length_cons] at hlen
              omega
            rw [parseGo, if_neg hterm] at h
            simp only [hdec, List.head?_cons] at h
            split at h
            · split at h
              · split at h
                · cases h
                · rename_i o1 heq
                  exact ih (next :: rest2) hr o1 o' h
                    (defaultCallback_keys s _ _ _ _ o o1 heq hk)
              · split at h
                · cases h
                · rename_i o1 heq
                  exact ih rest2 hr2 o1 o' h
                    (defaultCallback_keys s _ _ _ _ o o1 heq hk)
            · split at h
              · cases h
              · rename_i o1 heq
                exact ih (next :: rest2) hr o1 o' h
                  (defaultCallback_keys s _ _ _ _ o o1 heq hk)

/-! ## `NewOptions` keeps default keys canonical -/

theorem splitOnChar_ne_nil (sep : Char) : ∀ (l : List Char), splitOnChar sep l ≠ [] := by
  intro l
  induction l with
  | nil => simp [splitOnChar]
  | cons c r ih =>
    cases hsp : splitOnChar sep r with
    | nil => rw [splitOnChar, hsp]; simp
    | cons hh tt =>
      simp only [splitOnChar, hsp]
      by_cases hc : c = sep
      · rw [if_pos hc]; simp
      · rw [if_neg hc]; simp

theorem parseOptionLine_names_ne_nil {l : String} {names : List String}
    {b : Bool} {d : String}
    (h : parseOptionLine l = some (names, b, d)) : names ≠ [] := by
  simp only [parseOptionLine] at h
  split at h
  · cases h
  · split at h
    · split at h
      · cases h
        intro hmap
        exact splitOnChar_ne_nil ',' _ (List.map_eq_nil_iff.mp hmap)
      · cases h
    · cases h

theorem registerNames_snd_subset (lineNo : Nat) (c : String) :
    ∀ (names : List String) (al al' : List (String × String)),
      registerNames lineNo c names al = .ok al' →
      ∀ x, x ∈ al.map Prod.snd → x ∈ al'.map Prod.snd := by
  intro names
  induction names with
  | nil =>
    intro al al' h x hx
    cases h
    exact hx
  | cons n rest ih =>
    intro al al' h x hx
    rw [registerNames] at h
    by_cases hs : (alookup n al).isSome = true
    · rw [if_pos hs] at h
      cases h
    · rw [if_neg hs] at h
      by_cases hbad : n = "" ∨ n = "-" ∨ n = "--"
      · rw [if_pos hbad] at h
        cases h
      · rw [if_neg hbad] at h
        have hnone : alookup n al = none := by
          cases halo : alookup n al with
          | none => rfl
          | some v => rw [halo] at hs; exact absurd rfl hs
        refine ih (ainsert n c al) al' h x ?_
        rw [ainsert_of_not_mem n c al hnone, List.map_append]
        exact List.mem_append_left _ hx

theorem registerNames_canonical_mem (lineNo : Nat) (c : String) :
    ∀ (names : List String) (al al' : List (String × String)),
      names ≠ [] →
      registerNames lineNo c names al = .ok al' →
      c ∈ al'.map Prod.snd := by
  intro names
  induction names with
  | nil =>
    intro al al' hne h
    exact absurd rfl hne
  | cons n rest ih =>
    intro al al' hne h
    rw [registerNames] at h
    by_cases hs : (alookup n al).isSome = true
    · rw [if_pos hs] at h
      cases h
    · rw [if_neg hs] at h
      by_cases hbad : n = "" ∨ n = "-" ∨ n = "--"
      · rw [if_pos hbad] at h
        cases h
      · rw [if_neg hbad] at h
        have hnone : alookup n al = none := by
          cases halo : alookup n al with
          | none => rfl
          | some v => rw [halo] at hs; exact absurd rfl hs
        cases rest with
        | nil =>
          cases h
          rw [ainsert_of_not_mem n c al hnone, List.map_append]
          exact List.mem_append_right _ (by simp)
        | cons r2 rest2 =>
          exact ih (ainsert n c al) al' (by simp) h

/-- Compiling preserves registered alias targets and keeps every default key a
registered canonical. -/
theorem newOptionsGo_defaults :
    ∀ (lines : List String) (n stanza : Nat) (s s' : OptionSpec),
      newOptionsGo lines n stanza s = .ok s' →
      (∀ kv ∈ s.defaults, kv.1 ∈ s.aliases.map Prod.snd) →
      (∀ x ∈ s.aliases.map Prod.snd, x ∈ s'.aliases.map Prod.snd) ∧
      (∀ kv ∈ s'.defaults, kv.1 ∈ s'.aliases.map Prod.snd) := by
  intro lines
  induction lines with
  | nil =>
    intro n stanza s s' h hd
    cases h
    exact ⟨fun x hx => hx, hd⟩
  | cons l rest ih =>
    intro n stanza s s' h hd
    cases stanza with
    | zero =>
      rw [newOptionsGo] at h
      by_cases hl : l = "--"
      · rw [if_pos hl] at h
        obtain ⟨h1, h2⟩ := ih (n + 1) 1 _ s' h hd
        exact ⟨h1, h2⟩
      · rw [if_neg hl] at h
        obtain ⟨h1, h2⟩ := ih (n + 1) 0 _ s' h hd
        exact ⟨h1, h2⟩
    | succ kk =>
      by_cases hl : l = ""
      · rw [newOptionsGo, if_pos hl] at h
        obtain ⟨h1, h2⟩ := ih (n + 1) 1 _ s' h hd
        exact ⟨h1, h2⟩
      · cases hpl : parseOptionLine l with
        | none =>
          rw [newOptionsGo, if_neg hl, hpl] at h
          simp at h
        | some t =>
          obtain ⟨names, eqm, desc⟩ := t
          have hnames : names ≠ [] := parseOptionLine_names_ne_nil hpl
          simp only [newOptionsGo, if_neg hl, hpl] at h
          cases hreg : registerNames n ((names.getLast?).getD "") names s.aliases with
          | error e =>
            rw [hreg] at h
            simp at h
          | ok al =>
            rw [hreg] at h
            have hsub : ∀ x ∈ s.aliases.map Prod.snd, x ∈ al.map Prod.snd :=
              fun x hx => registerNames_snd_subset n _ names s.aliases al hreg x hx
            have hcanon : (names.getLast?).getD "" ∈ al.map Prod.snd :=
              registerNames_canonical_mem n _ names s.aliases al hnames hreg
            have hd' : ∀ kv ∈ (match findDefault desc.data with
                | some dd => ainsert ((names.getLast?).getD "") (String.mk dd) s.defaults
                | none => s.defaults), kv.1 ∈ al.map Prod.snd := by
              cases hfd : findDefault desc.data with
              | none => exact fun kv hkv => hsub kv.1 (hd kv hkv)
              | some dd =>
                intro kv hkv
                replace hkv : kv ∈ ainsert ((names.getLast?).getD "")
                    (String.mk dd) s.defaults := hkv
                rcases mem_ainsert_cases _ _ s.defaults kv hkv with h1 | h2
                · rw [h1]
                  exact hcanon
                · exact hsub kv.1 (hd kv h2)
            obtain ⟨h1, h2⟩ := ih (n + 1) 1 _ s' h hd'
            exact ⟨fun x hx => h1 x (hsub x hx), h2⟩

theorem alookup_foldl_ainsert_cases (key : String) :
    ∀ (ps : List (String × String)) (init : List (String × String)) (v : String),
      alookup key (ps.foldl (fun m kv => ainsert kv.1 kv.2 m) init) = some v →
      (∃ kv ∈ ps, kv.1 = key) ∨ alookup key init = some v := by
  intro ps
  induction ps with
  | nil =>
    intro init v h
    exact Or.inr h
  | cons p rest ih =>
    intro init v h
    rw [List.foldl_cons] at h
    rcases ih (ainsert p.1 p.2 init) v h with h1 | h2
    · obtain ⟨kv, hkv, he⟩ := h1
      exact Or.inl ⟨kv, List.mem_cons_of_mem _ hkv, he⟩
    · by_cases hk : key = p.1
      · exact Or.inl ⟨p, List.mem_cons_self _ _, hk.symm⟩
      · right
        rw [alookup_ainsert_ne p.1 key p.2 init hk] at h2
        exact h2

/-! ## Concrete compiled specifications used by the claims -/

/-- `NewOptions("C1\n--\nv,verbose doc")`. -/
def specC1 : OptionSpec :=
  { usage := "C1\n\n  -v, --verbose  doc\n"
    unknownOptionsFatal := true
    unknownValuesFatal := false
    aliases := [("v", "verbose"), ("verbose", "verbose")]
    defaults := []
    requiresArg := [] }

theorem newOptions_specC1 : newOptions "C1\n--\nv,verbose doc" = .ok specC1 := by
  decide

/-- `NewOptions("C2\n--\na,bbb doc\nb,ccc doc")`. -/
def specC2 : OptionSpec :=
  { usage := "C2\n\n  -a, --bbb  doc\n  -b, --ccc  doc\n"
    unknownOptionsFatal := true
    unknownValuesFatal := false
    aliases := [("a", "bbb"), ("bbb", "bbb"), ("b", "ccc"), ("ccc", "ccc")]
    defaults := []
    requiresArg := [] }

theorem newOptions_specC2 : newOptions "C2\n--\na,bbb doc\nb,ccc doc" = .ok specC2 := by
  decide

/-- `NewOptions("C7\n--\nccc= doc")`. -/
def specC7 : OptionSpec :=
  { usage := "C7\n\n  --ccc=  doc\n"
    unknownOptionsFatal := true
    unknownValuesFatal := false
    aliases := [("ccc", "ccc")]
    defaults := []
    requiresArg := ["ccc"] }

theorem newOptions_specC7 : newOptions "C7\n--\nccc= doc" = .ok specC7 := by
  decide

/-- `NewOptions("C8\n--\nccc= doc")`. -/
def specC8 : OptionSpec :=
  { usage := "C8\n\n  --ccc=  doc\n"
    unknownOptionsFatal := true
    unknownValuesFatal := false
    aliases := [("ccc", "ccc")]
    defaults := []
    requiresArg := ["ccc"] }

theorem newOptions_specC8 : newOptions "C8\n--\nccc= doc" = .ok specC8 := by
  decide

/-- `NewOptions("C4\n--\nccc= doc").SetUnknownOptionsFatal(false)`. -/
def specC4 : OptionSpec :=
  { usage := "C4\n\n  --ccc=  doc\n"
    unknownOptionsFatal := false
    unknownValuesFatal := false
    aliases := [("ccc", "ccc")]
    defaults := []
    requiresArg := ["ccc"] }

theorem newOptions_specC4 :
    (newOptions "C4\n--\nccc= doc").map
        (fun s => s.setUnknownOptionsFatal false) = .ok specC4 := by
  decide

/-- `NewOptions("C5\n--\na,bbb doc\nb,ccc= doc")`. -/
def specC5 : OptionSpec :=
  { usage := "C5\n\n  -a, --bbb  doc\n  -b, --ccc=  doc\n"
    unknownOptionsFatal := true
    unknownValuesFatal := false
    aliases := [("a", "bbb"), ("bbb", "bbb"), ("b", "ccc"), ("ccc", "ccc")]
    defaults := []
    requiresArg := ["ccc"] }

theorem newOptions_specC5 : newOptions "C5\n--\na,bbb doc\nb,ccc= doc" = .ok specC5 := by
  decide

/-! # Claims -/

/-- **C1** — counterexample. The claim asserts that a known option taking no
argument, presented unclustered with an inline value (`--verbose=3`), makes
parsing fail with a fatal "unexpected argument" error. On the code, parsing
succeeds: the occurrence is counted (stored value `"1"`), the inline value `3`
is silently discarded, and the flags log records the flag without a value. -/
theorem C1_counterexample :
    parse specC1 ["--verbose=3"] =
      .ok { opts := [("verbose", "1")], known := ["verbose", "verbose"],
            flags := [["--verbose"]], extra := [], leftover := [] } := by
  decide

/-- **C1** — amended claim: for every spec, registered no-argument alias,
inline value and scan state, the token `<flag>=<value>` parses exactly like
the bare `<flag>`; the inline value is silently discarded, never recorded and
never fatal (the "unexpected argument" fatal exists only on the cluster
path). -/
theorem C1_amended (s : OptionSpec) (a canonical v : String)
    (rest : List String) (o : Options)
    (hreg : alookup a s.aliases = some canonical)
    (hnoarg : s.requiresArg.contains canonical = false)
    (hne : a.data ≠ []) (hchars : ∀ c ∈ a.data, isNameChar c = true)
    (hdash : a ≠ "-") (hnl : v.data.contains '\n' = false) :
    parseGo s ((prettyFlag a ++ "=" ++ v) :: rest) o =
      parseGo s (prettyFlag a :: rest) o :=
  parseGo_pretty_noarg_inline s a canonical v rest o hreg hnoarg hne hchars
    hdash hnl

/-- Witness for the amended C1 at the compiled `v,verbose` spec. -/
theorem C1_witness :
    parseGo specC1 ["--verbose=3"] ⟨[], ["verbose", "verbose"], [], [], []⟩ =
      parseGo specC1 ["--verbose"] ⟨[], ["verbose", "verbose"], [], [], []⟩ := by
  have h := C1_amended specC1 "verbose" "verbose" "3" []
    ⟨[], ["verbose", "verbose"], [], [], []⟩ (by decide) (by decide) (by decide)
    (by decide) (by decide) (by decide)
  rw [show prettyFlag "verbose" ++ "=" ++ "3" = "--verbose=3" from by decide,
    show prettyFlag "verbose" = "--verbose" from by decide] at h
  exact h

/-- **C2** — counterexample. The claim asserts that a token whose name is a
registered alias (here `-bbb`, with `bbb` declared) is treated as one
occurrence of that option and never cluster-decoded. On the code, `-bbb` is
decoded character by character: `ccc` (canonical of `b`) is counted three
times and `bbb` not at all. -/
theorem C2_counterexample :
    (parse specC2 ["-bbb"]).map (fun o => (o.getInt "bbb", o.getInt "ccc", o.flags)) =
      .ok (.ok 0, .ok 3, [["-bbb"]]) := by
  decide

/-- **C2** — amended claim: the cluster decode applies to every single-dash
multi-character token, whether or not its name is registered; registration
only affects the lookahead, so a registered no-argument name is still decoded
character by character by the callback. -/
theorem C2_amended (s : OptionSpec) (name canonical : String)
    (rest : List String) (o : Options)
    (hreg : alookup name s.aliases = some canonical)
    (hnoarg : s.requiresArg.contains canonical = false)
    (hlen : 1 < name.data.length)
    (hchars : ∀ c ∈ name.data, isNameChar c = true)
    (hhead : name.data.head? ≠ some '-') :
    parseGo s (("-" ++ name) :: rest) o =
      match clusterGo s name none name.data o with
      | .error e => .error e
      | .ok o' => parseGo s rest { o' with flags := o'.flags ++ [["-" ++ name]] } :=
  parseGo_single_dash_registered_clusters s name canonical rest o hreg hnoarg
    hlen hchars hhead

/-- Witness for the amended C2: `-bbb` under the `a,bbb`/`b,ccc` spec is
processed by the character decode. -/
theorem C2_witness :
    parseGo specC2 ["-bbb"] ⟨[], ["bbb", "bbb", "ccc", "ccc"], [], [], []⟩ =
      match clusterGo specC2 "bbb" none "bbb".data
          ⟨[], ["bbb", "bbb", "ccc", "ccc"], [], [], []⟩ with
      | .error e => .error e
      | .ok o' => parseGo specC2 [] { o' with flags := o'.flags ++ [["-bbb"]] } := by
  have h := C2_amended specC2 "bbb" "bbb" []
    ⟨[], ["bbb", "bbb", "ccc", "ccc"], [], [], []⟩ (by decide) (by decide)
    (by decide) (by decide) (by decide)
  rw [show ("-" ++ "bbb" : String) = "-bbb" from by decide] at h
  exact h

/-- **C7** — counterexample. The claim asserts `--name=value` and
`--name value` always store identical values. When the value contains a
newline the inline token no longer matches the flag regexp (`.` does not match
`\n`), so it is treated as a positional: the stored values differ. -/
theorem C7_counterexample :
    (parse specC7 ["--ccc=a\nb"]).map (fun o => (o.get "ccc", o.extra)) =
      .ok (.ok "", ["--ccc=a\nb"]) ∧
    (parse specC7 ["--ccc", "a\nb"]).map (fun o => (o.get "ccc", o.extra)) =
      .ok (.ok "a\nb", []) := by
  exact ⟨by decide, by decide⟩

/-- **C7** — amended claim: for every argument-requiring option and every
value without a newline, the single token `<flag>=<value>` and the two tokens
`<flag>`, `<value>` scan identically (hence store identical values). -/
theorem C7_amended (s : OptionSpec) (a canonical v : String)
    (rest : List String) (o : Options)
    (hreg : alookup a s.aliases = some canonical)
    (harg : s.requiresArg.contains canonical = true)
    (hne : a.data ≠ []) (hchars : ∀ c ∈ a.data, isNameChar c = true)
    (hdash : a ≠ "-") (hnl : v.data.contains '\n' = false) :
    parseGo s ((prettyFlag a ++ "=" ++ v) :: rest) o =
      parseGo s (prettyFlag a :: v :: rest) o :=
  parseGo_pretty_arg_forms s a canonical v rest o hreg harg hne hchars hdash hnl

/-- Witness for the amended C7 at the compiled `ccc=` spec. -/
theorem C7_witness :
    parseGo specC7 ["--ccc=myval"] ⟨[], ["ccc"], [], [], []⟩ =
      parseGo specC7 ["--ccc", "myval"] ⟨[], ["ccc"], [], [], []⟩ := by
  have h := C7_amended specC7 "ccc" "ccc" "myval" [] ⟨[], ["ccc"], [], [], []⟩
    (by decide) (by decide) (by decide) (by decide) (by decide) (by decide)
  rw [show prettyFlag "ccc" ++ "=" ++ "myval" = "--ccc=myval" from by decide,
    show prettyFlag "ccc" = "--ccc" from by decide] at h
  exact h

/-- **C8** — counterexample. The claim asserts that every token strictly after
the first token equal to `--` goes to `leftover`. But a `--` can be consumed
as the *argument* of a preceding argument-requiring option: in
`["--ccc", "--", "x"]` the `--` becomes the value of `ccc`, scanning
continues, and `x` lands in `extra`, not `leftover`. -/
theorem C8_counterexample :
    (parse specC8 ["--ccc", "--", "x"]).map
        (fun o => (o.get "ccc", o.extra, o.leftover)) =
      .ok (.ok "--", ["x"], []) := by
  decide

/-- **C8** — amended claim: every token strictly after a `--` token that the
scanner *reaches as a flag position* (i.e. that is not consumed as the
argument of a preceding option) is appended verbatim to `leftover`; such
tokens are never parsed, never added to `extra`, never consumed as values and
never fatal, whatever their shape. -/
theorem C8_amended :
    (∀ (s : OptionSpec) (rest : List String) (o : Options),
      parseGo s ("--" :: rest) o = .ok { o with leftover := o.leftover ++ rest }) ∧
    (∀ (s : OptionSpec) (post : List String),
      parse s ("--" :: post) = .ok
        { opts := s.defaults.foldl (fun m kv => ainsert kv.1 kv.2 m) []
          known := s.aliases.map Prod.snd
          flags := []
          extra := []
          leftover := post }) :=
  ⟨parseGo_terminator, parse_terminator⟩

/-- **C4** — confirmed. With fatal-on-unknown disabled, an unknown unclustered
option with no inline value consumes the following token as its value exactly
when that token exists and does not start with a dash; and on the concrete
spec declaring only `ccc=`, the six-token example produces the stated flags
log and `Get("ccc") = "myval"`. -/
theorem C4 :
    (∀ (s : OptionSpec) (tok p name : String) (dbl : Bool)
        (rest : List String) (o : Options),
      s.unknownOptionsFatal = false →
      tok ≠ "--" →
      decodeFlag tok = some ⟨p, dbl, name, none⟩ →
      alookup name s.aliases = none →
      (dbl = true ∨ name.data.length = 1) →
      s.requiresArg.contains "" = false →
      parseGo s (tok :: rest) o =
        match rest with
        | [] => .ok { o with flags := o.flags ++ [[p]] }
        | next :: rest2 =>
          if next.data.head? = some '-' then
            parseGo s (next :: rest2) { o with flags := o.flags ++ [[p]] }
          else parseGo s rest2 { o with flags := o.flags ++ [[p, next]] }) ∧
    (parse specC4 ["--unk1", "--ccc", "myval", "--unk2", "val2", "--unk3"]).map
        (fun o => (o.flags, o.get "ccc")) =
      .ok ([["--unk1"], ["--ccc", "myval"], ["--unk2", "val2"], ["--unk3"]],
        .ok "myval") := by
  exact ⟨fun s tok p name dbl rest o h1 h2 h3 h4 h5 h6 =>
    parseGo_cons_unknown s tok p name dbl rest o h1 h2 h3 h4 h5 h6, by decide⟩

/-- Witness for C4: the general heuristic instantiated at `--unk3` with no
following token. -/
theorem C4_witness :
    parseGo specC4 ["--unk3"] ⟨[], ["ccc"], [], [], []⟩ =
      .ok ⟨[], ["ccc"], [["--unk3"]], [], []⟩ := by
  have h := C4.1 specC4 "--unk3" "--unk3" "unk3" true []
    ⟨[], ["ccc"], [], [], []⟩ (by decide) (by decide) (by decide) (by decide)
    (Or.inl rfl) (by decide)
  rw [h]
  rfl

/-- **C5** — confirmed. Only the last character of a cluster may consume a
trailing value: an argument-requiring option resolved at a non-final cluster
position is a fatal "missing argument" error; and on the concrete spec
`a,bbb` (no-arg) / `b,ccc=` (arg), parsing `["-aab=foo"]` counts `bbb` twice
and stores `"foo"` for `ccc`. -/
theorem C5 :
    (∀ (s : OptionSpec) (fn : String) (value : Option String)
        (pre : List Char) (c : Char) (suf : List Char) (o o₁ : Options)
        (cc : String),
      clusterPrefixGo s fn value pre o = .ok o₁ →
      alookup (String.mk [c]) s.aliases = some cc →
      s.requiresArg.contains cc = true →
      suf ≠ [] →
      clusterGo s fn value (pre ++ c :: suf) o =
        .error (.missingArgument (String.mk [c]))) ∧
    (parse specC5 ["-aab=foo"]).map (fun o => (o.getInt "bbb", o.get "ccc")) =
      .ok (.ok 2, .ok "foo") := by
  exact ⟨fun s fn value pre c suf o o₁ cc h1 h2 h3 h4 =>
    clusterGo_nonfinal_requiresArg s fn value pre c suf o o₁ cc h1 h2 h3 h4,
    by decide⟩

/-! ## Declared names and the duplicate check of `NewOptions` -/

/-- The names declared by a single option line (empty when the line does not
match `flagSpec`). -/
def lineNames (l : String) : List String :=
  match parseOptionLine l with
  | some (names, _, _) => names
  | none => []

/-- The names declared by the option stanzas, following the line/stanza walk
of `newOptionsGo`. -/
def declaredNamesGo : List String → Nat → List String
  | [], _ => []
  | l :: rest, 0 =>
    if l = "--" then declaredNamesGo rest 1 else declaredNamesGo rest 0
  | l :: rest, _ + 1 =>
    if l = "" then declaredNamesGo rest 1
    else lineNames l ++ declaredNamesGo rest 1

def declaredNames (spec : String) : List String :=
  declaredNamesGo (splitLines spec) 0

/-- A successful registration run means the names were distinct and fresh, and
anything absent afterwards was absent before. -/
theorem registerNames_ok (lineNo : Nat) (canonical : String) :
    ∀ (names : List String) (al al' : List (String × String)),
      registerNames lineNo canonical names al = .ok al' →
      names.Nodup ∧ (∀ x ∈ names, alookup x al = none) ∧
      (∀ k, alookup k al' = none → k ∉ names ∧ alookup k al = none) := by
  intro names
  induction names with
  | nil =>
    intro al al' h
    refine ⟨List.nodup_nil, by simp, fun k hk => ⟨by simp, ?_⟩⟩
    cases h
    exact hk
  | cons n rest ih =>
    intro al al' h
    rw [registerNames] at h
    by_cases hs : (alookup n al).isSome = true
    · rw [if_pos hs] at h
      simp at h
    · rw [if_neg hs] at h
      by_cases hbad : n = "" ∨ n = "-" ∨ n = "--"
      · rw [if_pos hbad] at h
        simp at h
      · rw [if_neg hbad] at h
        obtain ⟨hnd, hfresh, hprop⟩ := ih (ainsert n canonical al) al' h
        have hnone : alookup n al = none := by
          cases halo : alookup n al with
          | none => rfl
          | some v => rw [halo] at hs; exact absurd rfl hs
        have hnotmem : n ∉ rest := by
          intro hm
          have hx := hfresh n hm
          rw [alookup_ainsert_self] at hx
          cases hx
        refine ⟨List.nodup_cons.mpr ⟨hnotmem, hnd⟩, ?_, ?_⟩
        · intro x hx
          rcases List.mem_cons.mp hx with rfl | hxr
          · exact hnone
          · have hxa := hfresh x hxr
            have hxn : x ≠ n := by
              intro he
              subst he
              rw [alookup_ainsert_self] at hxa
              cases hxa
            rw [alookup_ainsert_ne n x canonical al hxn] at hxa
            exact hxa
        · intro k hk
          obtain ⟨hknr, hka⟩ := hprop k hk
          have hkn : k ≠ n := by
            intro he
            subst he
            rw [alookup_ainsert_self] at hka
            cases hka
          rw [alookup_ainsert_ne n k canonical al hkn] at hka
          refine ⟨fun hm => ?_, hka⟩
          rcases List.mem_cons.mp hm with rfl | hmr
          · exact hkn rfl
          · exact hknr hmr

/-- A successful compile implies the declared names are pairwise distinct and
fresh with respect to the aliases already registered. -/
theorem newOptionsGo_nodup :
    ∀ (lines : List String) (n stanza : Nat) (s s' : OptionSpec),
      newOptionsGo lines n stanza s = .ok s' →
      (declaredNamesGo lines stanza).Nodup ∧
      ∀ x ∈ declaredNamesGo lines stanza, alookup x s.aliases = none := by
  intro lines
  induction lines with
  | nil =>
    intro n stanza s s' h
    refine ⟨?_, by simp [declaredNamesGo]⟩
    cases stanza <;> exact List.nodup_nil
  | cons l rest ih =>
    intro n stanza s s' h
    cases stanza with
    | zero =>
      rw [newOptionsGo] at h
      by_cases hl : l = "--"
      · rw [if_pos hl] at h
        rw [declaredNamesGo, if_pos hl]
        obtain ⟨h1, h2⟩ := ih (n + 1) 1 _ s' h
        exact ⟨h1, h2⟩
      · rw [if_neg hl] at h
        rw [declaredNamesGo, if_neg hl]
        obtain ⟨h1, h2⟩ := ih (n + 1) 0 _ s' h
        exact ⟨h1, h2⟩
    | succ k =>
      by_cases hl : l = ""
      · rw [newOptionsGo, if_pos hl] at h
        rw [declaredNamesGo, if_pos hl]
        obtain ⟨h1, h2⟩ := ih (n + 1) 1 _ s' h
        exact ⟨h1, h2⟩
      · rw [declaredNamesGo, if_neg hl]
        cases hpl : parseOptionLine l with
        | none =>
          rw [newOptionsGo, if_neg hl, hpl] at h
          simp at h
        | some t =>
          obtain ⟨names, eqm, desc⟩ := t
          simp only [newOptionsGo, if_neg hl, hpl] at h
          cases hreg : registerNames n ((names.getLast?).getD "") names s.aliases with
          | error e =>
            rw [hreg] at h
            simp at h
          | ok al =>
            rw [hreg] at h
            obtain ⟨hnd1, hf1, hp1⟩ :=
              registerNames_ok n ((names.getLast?).getD "") names s.aliases al hreg
            obtain ⟨hnd2, hf2⟩ := ih (n + 1) 1 _ s' h
            have hlnames : lineNames l = names := by
              rw [lineNames, hpl]
            rw [hlnames]
            constructor
            · rw [List.nodup_append]
              refine ⟨hnd1, hnd2, fun a ha hda => ?_⟩
              exact (hp1 a (hf2 a hda)).1 ha
            · intro x hx
              rcases List.mem_append.mp hx with hxn | hxd
              · exact hf1 x hxn
              · exact (hp1 x (hf2 x hxd)).2

/-! ## Scans with trailing text (`fmt.Sscan` stops at the first non-digit) -/

theorem scanIntTokenBody_decimal_suffix (sgn : List Char) {c : Char}
    {rest suffix : List Char}
    (hall : ∀ x ∈ c :: rest, isDecDigit x = true) (hc0 : c ≠ '0')
    (hsuftw : suffix.takeWhile (fun x => isDecDigit x || x == '_') = []) :
    scanIntTokenBody sgn ((c :: rest) ++ suffix) = some (sgn ++ c :: rest) := by
  have hzero : (c == '0') = false := beq_eq_false_iff_ne.mpr hc0
  have hrun : takeDigitsU isDecDigit ((c :: rest) ++ suffix) = c :: rest := by
    rw [takeDigitsU, takeWhile_append_of_all (fun x hx => by simp [hall x hx]),
      hsuftw, List.append_nil]
  have hrun' : takeDigitsU isDecDigit (c :: (rest ++ suffix)) = c :: rest := hrun
  simp [scanIntTokenBody, hzero, hrun']

theorem scanIntToken_decimal_suffix {c : Char} {rest suffix : List Char}
    (hall : ∀ x ∈ c :: rest, isDecDigit x = true) (hc0 : c ≠ '0')
    (hsuftw : suffix.takeWhile (fun x => isDecDigit x || x == '_') = []) :
    scanIntToken ((c :: rest) ++ suffix) = some (c :: rest) := by
  have hcb := isDecDigit_bounds (hall c (by simp))
  have hspace : isScanSpace c = false :=
    isScanSpace_ascii_visible (by omega) (by omega)
  have hplus : (c == '+') = false := beq_false_of_toNat_ne (by
    have : ('+' : Char).toNat = 43 := by decide
    omega)
  have hminus : (c == '-') = false := beq_false_of_toNat_ne (by
    have : ('-' : Char).toNat = 45 := by decide
    omega)
  have hbody := scanIntTokenBody_decimal_suffix [] hall hc0 hsuftw
  simp only [List.cons_append, scanIntToken, List.dropWhile, hspace, hplus,
    hminus, Bool.or_self] at hbody ⊢
  simpa using hbody

theorem sscanInt_decimal_suffix {c : Char} {rest suffix : List Char}
    (hall : ∀ x ∈ c :: rest, isDecDigit x = true) (hc0 : c ≠ '0')
    (hlt : (decValue (c :: rest) : Int) < 2 ^ 63)
    (hsuftw : suffix.takeWhile (fun x => isDecDigit x || x == '_') = []) :
    sscanInt (String.mk ((c :: rest) ++ suffix)) = some ((decValue (c :: rest) : Int)) := by
  show (scanIntToken ((c :: rest) ++ suffix)).bind parseIntTok = _
  rw [scanIntToken_decimal_suffix hall hc0 hsuftw]
  show parseIntTok (c :: rest) = _
  exact parseIntTok_decimal hall hc0 hlt

/-- A value whose first character can begin no integer makes the scan fail. -/
theorem sscanInt_bad_head {c : Char} {r : List Char}
    (hspace : isScanSpace c = false) (hplus : c ≠ '+') (hminus : c ≠ '-')
    (hdig : isDecDigit c = false) (hund : c ≠ '_') :
    sscanInt (String.mk (c :: r)) = none := by
  show (scanIntToken (c :: r)).bind parseIntTok = none
  have hp : (c == '+') = false := beq_eq_false_iff_ne.mpr hplus
  have hm : (c == '-') = false := beq_eq_false_iff_ne.mpr hminus
  have hu : (c == '_') = false := beq_eq_false_iff_ne.mpr hund
  have hz : (c == '0') = false := by
    cases hbe : c == '0' with
    | false => rfl
    | true =>
      rw [eq_of_beq hbe] at hdig
      exact absurd hdig (by decide)
  have hrun : takeDigitsU isDecDigit (c :: r) = [] := by
    simp [takeDigitsU, List.takeWhile_cons, hdig, hu]
  simp [scanIntToken, List.dropWhile, hspace, hp, hm, scanIntTokenBody, hz, hrun]

/-! ## Counting runs (for the repeated-occurrence analysis) -/

theorem string_mk_ne_empty (l : List Char) (hl : l ≠ []) : String.mk l ≠ "" := by
  intro h
  exact hl (congrArg String.data h)

theorem intDec_ne_empty (z : Int) : intDec z ≠ "" := by
  rw [intDec]
  split
  · exact string_mk_ne_empty _ (by simp)
  · exact string_mk_ne_empty _ (natDecL_ne_nil _)

/-- The stored value of a counting option after `k` occurrences: absent for
`k = 0`, the rendered wrapped count afterwards. -/
def countVal (k : Nat) : Option String :=
  if k = 0 then none else some (intDec (wrap64 (k : Int)))

theorem getInt_countVal (o : Options) (canonical : String) (k : Nat)
    (hknown : o.known.contains canonical = true)
    (hstore : alookup canonical o.opts = countVal k) :
    o.getInt canonical = .ok (wrap64 (k : Int)) := by
  by_cases hk : k = 0
  · subst hk
    rw [countVal, if_pos rfl] at hstore
    simp only [Options.getInt, Options.get, hstore, hknown]
    norm_num [wrap64]
  · rw [countVal, if_neg hk] at hstore
    have hval := sscanInt_intDec (wrap64 (k : Int)) (wrap64_range _).1 (wrap64_range _).2
    have hne := intDec_ne_empty (wrap64 (k : Int))
    simp only [Options.getInt, Options.get, hstore]
    rw [if_neg hne, hval]

theorem counting_countVal (o : Options) (canonical : String) (k : Nat)
    (hknown : o.known.contains canonical = true)
    (hstore : alookup canonical o.opts = countVal k) :
    counting o canonical =
      .ok { o with opts := ainsert canonical (intDec (wrap64 ((k + 1 : Nat) : Int))) o.opts } := by
  rw [counting, getInt_countVal o canonical k hknown hstore]
  show Except.ok
      { o with opts := ainsert canonical (intDec (wrap64 (wrap64 (k : Int) + 1))) o.opts } = _
  rw [wrap64_add_one]
  push_cast
  rfl

theorem alookup_foldl_ainsert_none (key : String) (ps : List (String × String)) :
    ∀ (init : List (String × String)), (∀ kv ∈ ps, kv.1 ≠ key) →
      alookup key (ps.foldl (fun m kv => ainsert kv.1 kv.2 m) init) = alookup key init := by
  induction ps with
  | nil => intro init h; rfl
  | cons p ps ih =>
    intro init h
    rw [List.foldl_cons,
      ih (ainsert p.1 p.2 init) (fun kv hkv => h kv (List.mem_cons_of_mem p hkv)),
      alookup_ainsert_ne]
    exact Ne.symm (h p (List.mem_cons_self p ps))

/-- A run of no-argument alias occurrences advances the stored count by the
number of occurrences; `known` is untouched. -/
theorem parseGo_counting_run (s : OptionSpec) (canonical : String)
    (hnoarg : s.requiresArg.contains canonical = false)
    (as : List String) :
    ∀ (o : Options) (k : Nat),
      (∀ a ∈ as, alookup a s.aliases = some canonical ∧ a.data ≠ [] ∧
        (∀ c ∈ a.data, isNameChar c = true) ∧ a ≠ "-") →
      o.known.contains canonical = true →
      alookup canonical o.opts = countVal k →
      ∃ o', parseGo s (as.map prettyFlag) o = .ok o' ∧
        o'.known.contains canonical = true ∧
        alookup canonical o'.opts = countVal (k + as.length) := by
  induction as with
  | nil =>
    intro o k hals hknown hstore
    exact ⟨o, rfl, hknown, by simpa using hstore⟩
  | cons a as ih =>
    intro o k hals hknown hstore
    obtain ⟨hreg, hne, hchars, hdash⟩ := hals a (List.mem_cons_self a as)
    rw [List.map_cons,
      parseGo_pretty_noarg s a canonical _ o hreg hnoarg hne hchars hdash,
      counting_countVal o canonical k hknown hstore]
    have hstore1 : alookup canonical
        (ainsert canonical (intDec (wrap64 ((k + 1 : Nat) : Int))) o.opts) =
        countVal (k + 1) := by
      rw [alookup_ainsert_self, countVal, if_neg (Nat.succ_ne_zero k)]
    obtain ⟨o', h1, h2, h3⟩ := ih
      { o with
        opts := ainsert canonical (intDec (wrap64 ((k + 1 : Nat) : Int))) o.opts
        flags := o.flags ++ [[prettyFlag a]] } (k + 1)
      (fun x hx => hals x (List.mem_cons_of_mem a hx)) hknown hstore1
    refine ⟨o', h1, h2, ?_⟩
    rw [h3]
    congr 1
    simp only [List.length_cons]
    omega

/-- Parsing a list of no-argument alias occurrences from scratch (no default
for the canonical) yields the wrapped occurrence count. -/
theorem parse_counting_getInt (s : OptionSpec) (canonical : String)
    (as : List String)
    (hals : ∀ a ∈ as, alookup a s.aliases = some canonical ∧ a.data ≠ [] ∧
      (∀ c ∈ a.data, isNameChar c = true) ∧ a ≠ "-")
    (hnoarg : s.requiresArg.contains canonical = false)
    (hknown : canonical ∈ s.aliases.map Prod.snd)
    (hdef : ∀ kv ∈ s.defaults, kv.1 ≠ canonical) :
    (parse s (as.map prettyFlag)).map (fun o => o.getInt canonical) =
      .ok (.ok (wrap64 (as.length : Int))) := by
  have hk : ((s.aliases.map Prod.snd).contains canonical) = true := by
    simpa using hknown
  have h0 : alookup canonical
      (s.defaults.foldl (fun m kv => ainsert kv.1 kv.2 m) []) = countVal 0 := by
    rw [alookup_foldl_ainsert_none canonical s.defaults [] hdef]
    rfl
  obtain ⟨o', h1, h2, h3⟩ := parseGo_counting_run s canonical hnoarg as
    { opts := s.defaults.foldl (fun m kv => ainsert kv.1 kv.2 m) []
      known := s.aliases.map Prod.snd
      flags := []
      extra := []
      leftover := [] } 0 hals hk h0
  rw [Nat.zero_add] at h3
  rw [parse, h1]
  simp only [Except.map]
  rw [getInt_countVal o' canonical as.length h2 h3]

/-- Witness for C5: in the cluster `-ba`, the argument-requiring `b` occurs
before the final character, which is fatal. -/
theorem C5_witness :
    clusterGo specC5 "ba" none ([] ++ 'b' :: ['a'])
        ⟨[], ["bbb", "bbb", "ccc", "ccc"], [], [], []⟩ =
      .error (.missingArgument (String.mk ['b'])) :=
  C5.1 specC5 "ba" none [] 'b' ['a']
    ⟨[], ["bbb", "bbb", "ccc", "ccc"], [], [], []⟩
    ⟨[], ["bbb", "bbb", "ccc", "ccc"], [], [], []⟩ "ccc"
    (by decide) (by decide) (by decide) (by decide)

/-- `NewOptions("C6\n--\nv,verbose doc")`. -/
def specC6 : OptionSpec :=
  { usage := "C6\n\n  -v, --verbose  doc\n"
    unknownOptionsFatal := true
    unknownValuesFatal := false
    aliases := [("v", "verbose"), ("verbose", "verbose")]
    defaults := []
    requiresArg := [] }

theorem newOptions_specC6 : newOptions "C6\n--\nv,verbose doc" = .ok specC6 := by
  decide

/-- **C6** — counterexample. The claim asserts the count equals `n` for every
`n ≥ 0`. The counter is a 64-bit `int` rendered through `fmt.Sprintf("%d", …)`
and re-read by `fmt.Sscan`, so at `n = 2^63` occurrences the value has wrapped
to `-(2^63)`, not `2^63`. -/
theorem C6_counterexample :
    (parse specC6 ((List.replicate (2 ^ 63) "v").map prettyFlag)).map
        (fun o => o.getInt "verbose") = .ok (.ok (-(2 ^ 63))) ∧
    ((-(2 ^ 63) : Int) ≠ (((2 ^ 63 : Nat) : Int))) := by
  constructor
  · have h := parse_counting_getInt specC6 "verbose" (List.replicate (2 ^ 63) "v")
      (fun a ha => by
        rw [List.eq_of_mem_replicate ha]
        exact ⟨by decide, by decide, by decide, by decide⟩)
      (by decide) (by decide) (by decide)
    rw [List.length_replicate] at h
    have hw : wrap64 (((2 : Nat) ^ 63 : Nat) : Int) = -(2 ^ 63) := by
      rw [wrap64]
      norm_num
    rw [h, hw]
  · decide

/-- **C6** — amended claim: for every spec, canonical name of a no-argument
option with no default, and list of (well-formed, registered) aliases of that
option with fewer than `2^63` elements, parsing the corresponding flag tokens
yields exactly the number of occurrences: each occurrence re-reads the stored
count and stores its successor. Beyond `2^63` the 64-bit counter wraps. -/
theorem C6_amended (s : OptionSpec) (canonical : String) (as : List String)
    (hals : ∀ a ∈ as, alookup a s.aliases = some canonical ∧ a.data ≠ [] ∧
      (∀ c ∈ a.data, isNameChar c = true) ∧ a ≠ "-")
    (hnoarg : s.requiresArg.contains canonical = false)
    (hknown : canonical ∈ s.aliases.map Prod.snd)
    (hdef : ∀ kv ∈ s.defaults, kv.1 ≠ canonical)
    (hrange : ((as.length : Nat) : Int) < 2 ^ 63) :
    (parse s (as.map prettyFlag)).map (fun o => o.getInt canonical) =
      .ok (.ok ((as.length : Nat) : Int)) := by
  have hz : wrap64 ((as.length : Nat) : Int) = ((as.length : Nat) : Int) :=
    wrap64_eq_self (by omega) hrange
  rw [parse_counting_getInt s canonical as hals hnoarg hknown hdef, hz]

/-- `NewOptions("C3\n--\nccc= doc")`. -/
def specC3 : OptionSpec :=
  { usage := "C3\n\n  --ccc=  doc\n"
    unknownOptionsFatal := true
    unknownValuesFatal := false
    aliases := [("ccc", "ccc")]
    defaults := []
    requiresArg := ["ccc"] }

theorem newOptions_specC3 : newOptions "C3\n--\nccc= doc" = .ok specC3 := by
  decide

/-- **C3** — counterexample. The claim asserts `GetInt` fails with a "bad
integer value" error for every stored value that is not an integer, naming
`"123abc"`. But `fmt.Sscan` stops at the first character that cannot extend
the number and ignores the rest of the string, so `"123abc"` yields `123`
with no error. -/
theorem C3_counterexample :
    (parse specC3 ["--ccc", "123abc"]).map (fun o => o.getInt "ccc") =
      .ok (.ok 123) ∧ sscanInt "123abc" = some 123 := by
  exact ⟨by decide, by decide⟩

/-- **C3** — amended claim: `GetInt` returns 0 for an empty stored value;
for a stored value that begins with a nonzero decimal numeral it returns that
numeral's value, silently ignoring any trailing text that cannot extend the
number; and it fails with the "bad integer value" error when the value's
first character can begin no integer. -/
theorem C3_amended :
    (∀ (o : Options) (canonical : String),
      alookup canonical o.opts = some "" → o.getInt canonical = .ok 0) ∧
    (∀ (o : Options) (canonical : String) (c : Char) (rest suffix : List Char),
      alookup canonical o.opts = some (String.mk ((c :: rest) ++ suffix)) →
      (∀ x ∈ c :: rest, isDecDigit x = true) → c ≠ '0' →
      (decValue (c :: rest) : Int) < 2 ^ 63 →
      suffix.takeWhile (fun x => isDecDigit x || x == '_') = [] →
      o.getInt canonical = .ok ((decValue (c :: rest) : Int))) ∧
    (∀ (o : Options) (canonical : String) (c : Char) (r : List Char),
      alookup canonical o.opts = some (String.mk (c :: r)) →
      isScanSpace c = false → c ≠ '+' → c ≠ '-' → isDecDigit c = false →
      c ≠ '_' →
      o.getInt canonical = .error (.badIntegerValue canonical (String.mk (c :: r)))) := by
  refine ⟨?_, ?_, ?_⟩
  · intro o canonical h
    simp only [Options.getInt, Options.get, h]
    rfl
  · intro o canonical c rest suffix halook hall hc0 hlt hsuf
    have hval := sscanInt_decimal_suffix hall hc0 hlt hsuf
    have hne : String.mk ((c :: rest) ++ suffix) ≠ "" :=
      string_mk_ne_empty _ (by simp)
    simp only [Options.getInt, Options.get, halook]
    rw [if_neg hne, hval]
  · intro o canonical c r halook hspace hplus hminus hdig hund
    have hval : sscanInt (String.mk (c :: r)) = none :=
      sscanInt_bad_head hspace hplus hminus hdig hund
    have hne : String.mk (c :: r) ≠ "" := string_mk_ne_empty _ (by simp)
    simp only [Options.getInt, Options.get, halook]
    rw [if_neg hne, hval]

/-- **C9** — confirmed. A spec in which a declared name appears twice (across
lines or within one line) never compiles: a successful `NewOptions` forces the
declared names to be pairwise distinct. Concretely, re-declaring `bbb` on the
fourth line is the fatal "duplicate name" error at that line. -/
theorem C9 :
    (∀ spec : String, ¬(declaredNames spec).Nodup →
      ∀ s' : OptionSpec, newOptions spec ≠ .ok s') ∧
    newOptions "C9\n--\na,bbb,ccc an option\nd,bbb,eee an option with dupe" =
      .error (.duplicateName 3 "bbb") := by
  constructor
  · intro spec hdup s' hok
    exact hdup (newOptionsGo_nodup (splitLines spec) 0 0 _ s' hok).1
  · decide

/-- Witness for C9: the duplicated `bbb` spec cannot compile to any result. -/
theorem C9_witness :
    ¬(declaredNames "C9\n--\na,bbb,ccc an option\nd,bbb,eee an option with dupe").Nodup ∧
    newOptions "C9\n--\na,bbb,ccc an option\nd,bbb,eee an option with dupe" ≠
      .ok specC3 :=
  ⟨by decide,
   C9.1 "C9\n--\na,bbb,ccc an option\nd,bbb,eee an option with dupe" (by decide) specC3⟩

/-- Witness for the amended C3: its three branches at stored values `""`,
`"123abc"` and `"abc"`. -/
theorem C3_witness :
    (Options.getInt ⟨[("ccc", "")], ["ccc"], [], [], []⟩ "ccc" = .ok 0) ∧
    (Options.getInt ⟨[("ccc", "123abc")], ["ccc"], [], [], []⟩ "ccc" =
      .ok ((decValue ['1', '2', '3'] : Int))) ∧
    (Options.getInt ⟨[("ccc", "abc")], ["ccc"], [], [], []⟩ "ccc" =
      .error (.badIntegerValue "ccc" (String.mk ['a', 'b', 'c']))) :=
  ⟨C3_amended.1 ⟨[("ccc", "")], ["ccc"], [], [], []⟩ "ccc" (by decide),
   C3_amended.2.1 ⟨[("ccc", "123abc")], ["ccc"], [], [], []⟩ "ccc"
     '1' ['2', '3'] ['a', 'b', 'c'] (by decide) (by decide) (by decide)
     (by decide) (by decide),
   C3_amended.2.2 ⟨[("ccc", "abc")], ["ccc"], [], [], []⟩ "ccc"
     'a' ['b', 'c'] (by decide) (by decide) (by decide) (by decide)
     (by decide) (by decide)⟩

/-- Witness for the amended C6: three occurrences across the two aliases of
`verbose` count to three. -/
theorem C6_witness :
    (parse specC6 (["v", "verbose", "v"].map prettyFlag)).map
        (fun o => o.getInt "verbose") = .ok (.ok 3) := by
  have h := C6_amended specC6 "verbose" ["v", "verbose", "v"]
    (by decide) (by decide) (by decide) (by decide) (by decide)
    -- length 3 is in range
  simpa using h

/-- **C10** — confirmed. For a compiled spec, every key of the values map of a
successful parse is a registered canonical name: the initial map is seeded
from the defaults (whose keys compilation keeps canonical), and the scan only
ever inserts canonicals obtained from alias lookups — an unknown option never
creates an entry. -/
theorem C10 (spec : String) (s : OptionSpec) (args : List String) (o : Options)
    (k v : String)
    (hcomp : newOptions spec = .ok s)
    (hparse : parse s args = .ok o)
    (hkv : alookup k o.opts = some v) :
    k ∈ s.aliases.map Prod.snd := by
  have hdef : ∀ kv ∈ s.defaults, kv.1 ∈ s.aliases.map Prod.snd :=
    (newOptionsGo_defaults (splitLines spec) 0 0 _ s hcomp (by simp)).2
  have hinit : ∀ k' v',
      alookup k' (s.defaults.foldl (fun m kv => ainsert kv.1 kv.2 m) []) = some v' →
      k' ∈ s.aliases.map Prod.snd := by
    intro k' v' h
    rcases alookup_foldl_ainsert_cases k' s.defaults [] v' h with ⟨kv, hmem, he⟩ | habs
    · exact he ▸ hdef kv hmem
    · cases habs
  exact parseGo_keys s args.length args (le_refl _) _ o hparse hinit k v hkv

/-- Witness for C10: the key stored by `--ccc myval` under the `ccc=` spec is
the canonical `ccc`. -/
theorem C10_witness :
    "ccc" ∈ specC7.aliases.map Prod.snd :=
  C10 "C7\n--\nccc= doc" specC7 ["--ccc", "myval"]
    ⟨[("ccc", "myval")], ["ccc"], [["--ccc", "myval"]], [], []⟩ "ccc" "myval"
    (by decide) (by decide) (by decide)

end GoOptions
